import Mathlib

/-! Verification of gcp_go_utils: the `util`, `secrets` and `storage` packages.

A shallow embedding of `util/utility.go`, `secrets/secrets.go` and the listing,
deletion and client-reuse parts of `storage/cloudStorage.go`, together with the
pieces of the Go standard library (`strconv`, `strings`, `unicode/utf8`) that
those functions call.

Conventions.

* A Go `string` or `[]byte` is a list of bytes; every byte is a natural number.
* Go's `int` and `int64` are mathematical integers, wrapped into the signed
  64-bit range wherever the Go code performs arithmetic.
* A Go `(value, error)` pair is a Lean pair whose second component is
  `none` for a `nil` error.
* The clock, the environment, the file system, the secret-manager and storage
  SDKs and the JSON decoder are explicit parameters.
* A run-time panic is the value `none` of an `Option` result.
-/

namespace GcpGoUtils

/-! ## Strings and machine integers -/

/-- A Go string (or byte slice): its bytes, in order. -/
abbrev GoString := List Nat

/-- The bytes of an ASCII string literal. -/
def lit (s : String) : GoString := s.toList.map Char.toNat

/-- The Go slice expression `s[lo:hi]` for `lo ≤ hi ≤ len(s)`. -/
def slice (s : GoString) (lo hi : Nat) : GoString := (s.take hi).drop lo

/-- Two's-complement wrap of an integer into the `int64` range. -/
def wrapInt64 (x : Int) : Int := (x + 2 ^ 63) % 2 ^ 64 - 2 ^ 63

/-- Largest `uint64`. -/
def maxUint64 : Nat := 2 ^ 64 - 1

/-- Bit width of Go's `int` (`strconv.IntSize`) on the 64-bit targets. -/
def intSize : Nat := 64

/-! ## `strconv` -/

/-- The two error kinds `strconv` reports (`ErrSyntax`, `ErrRange`). -/
inductive NumError
  | badSyntax
  | outOfRange
  deriving DecidableEq, Repr

/-- The `lower` helper of `strconv`: `c | ('x' - 'X')`. -/
def lowerByte (c : Nat) : Nat := c ||| 32

/-- The digit value `ParseUint` assigns to a byte, if it is a digit or letter. -/
def digitVal (c : Nat) : Option Nat :=
  if 48 ≤ c ∧ c ≤ 57 then some (c - 48)
  else if 97 ≤ lowerByte c ∧ lowerByte c ≤ 122 then some (lowerByte c - 97 + 10)
  else none

/-- The digit loop of `strconv.ParseUint` for an explicit base, starting from
the accumulator `n`. -/
def parseUintLoop (base maxVal cutoff : Nat) : GoString → Nat → Nat × Option NumError
  | [], n => (n, none)
  | c :: cs, n =>
    match digitVal c with
    | none => (0, some .badSyntax)
    | some d =>
      if base ≤ d then (0, some .badSyntax)
      else if cutoff ≤ n then (maxVal, some .outOfRange)
      else
        let n0 := n * base
        let n1 := (n0 + d) % 2 ^ 64
        if n1 < n0 ∨ maxVal < n1 then (maxVal, some .outOfRange)
        else parseUintLoop base maxVal cutoff cs n1

/-- The function `strconv.ParseUint(s, base, bitSize)` for an explicit base
`2 ≤ base ≤ 36`; `bitSize = 0` stands for `IntSize`. -/
def ParseUint (s : GoString) (base bitSize : Nat) : Nat × Option NumError :=
  if s = [] then (0, some .badSyntax)
  else
    let bits := if bitSize = 0 then intSize else bitSize
    parseUintLoop base (2 ^ bits - 1) (maxUint64 / base + 1) s 0

/-- The function `strconv.ParseInt(s, base, bitSize)` for an explicit base. -/
def ParseInt (s : GoString) (base bitSize : Nat) : Int × Option NumError :=
  match s with
  | [] => (0, some .badSyntax)
  | c :: cs =>
    let neg := decide (c = 45)
    let body := if c = 43 ∨ c = 45 then cs else c :: cs
    let (un, err) := ParseUint body base bitSize
    if err = some .badSyntax then (0, err)
    else
      let bits := if bitSize = 0 then intSize else bitSize
      let cutoff := 2 ^ (bits - 1)
      if ¬ neg ∧ cutoff ≤ un then ((cutoff : Int) - 1, some .outOfRange)
      else if neg ∧ cutoff < un then (-(cutoff : Int), some .outOfRange)
      else (if neg then -(un : Int) else (un : Int), none)

/-- The function `strconv.Atoi`: `ParseInt(s, 10, 0)` converted to `int`. -/
def Atoi (s : GoString) : Int × Option NumError := ParseInt s 10 0

/-- The byte `digits[d]` of `strconv`, for `digits = "0123456789abc...xyz"`. -/
def digitChar (d : Nat) : Nat := if d < 10 then 48 + d else 87 + d

/-- The digit loop of `strconv.formatBits`, most significant digit first. The
fuel bounds the number of digits written (the Go buffer holds 64). -/
def formatBitsLoop (base : Nat) : Nat → Nat → GoString → GoString
  | 0, _, acc => acc
  | fuel + 1, u, acc =>
    if base ≤ u then formatBitsLoop base fuel (u / base) (digitChar (u % base) :: acc)
    else digitChar u :: acc

/-- The function `strconv.FormatInt(i, base)` for an `int64` value `i`. -/
def FormatInt (i : Int) (base : Nat) : GoString :=
  if i < 0 then 45 :: formatBitsLoop base 64 (-i).toNat []
  else formatBitsLoop base 64 i.toNat []

/-! ## `unicode/utf8` and `strings` -/

/-- The rune `utf8.RuneError`. -/
def RuneError : Nat := 0xFFFD

/-- A UTF-8 continuation byte. -/
def isCont (b : Nat) : Bool := decide (0x80 ≤ b ∧ b ≤ 0xBF)

/-- The function `utf8.DecodeRuneInString`: the first rune of `s` and its
width in bytes. -/
def DecodeRune : GoString → Nat × Nat
  | [] => (RuneError, 0)
  | b0 :: rest =>
    if b0 < 0x80 then (b0, 1)
    else if 0xC2 ≤ b0 ∧ b0 ≤ 0xDF then
      match rest with
      | b1 :: _ =>
        if isCont b1 then ((b0 % 32) * 64 + b1 % 64, 2) else (RuneError, 1)
      | _ => (RuneError, 1)
    else if 0xE0 ≤ b0 ∧ b0 ≤ 0xEF then
      match rest with
      | b1 :: b2 :: _ =>
        let lo := if b0 = 0xE0 then 0xA0 else 0x80
        let hi := if b0 = 0xED then 0x9F else 0xBF
        if lo ≤ b1 ∧ b1 ≤ hi ∧ isCont b2 then
          ((b0 % 16) * 4096 + (b1 % 64) * 64 + b2 % 64, 3)
        else (RuneError, 1)
      | _ => (RuneError, 1)
    else if 0xF0 ≤ b0 ∧ b0 ≤ 0xF4 then
      match rest with
      | b1 :: b2 :: b3 :: _ =>
        let lo := if b0 = 0xF0 then 0x90 else 0x80
        let hi := if b0 = 0xF4 then 0x8F else 0xBF
        if lo ≤ b1 ∧ b1 ≤ hi ∧ isCont b2 ∧ isCont b3 then
          ((b0 % 8) * 262144 + (b1 % 64) * 4096 + (b2 % 64) * 64 + b3 % 64, 4)
        else (RuneError, 1)
      | _ => (RuneError, 1)
    else (RuneError, 1)

/-- The function `utf8.AppendRune` on an empty buffer: the UTF-8 encoding of a
rune, with `RuneError` written for surrogates and out-of-range values. -/
def EncodeRune (r : Nat) : GoString :=
  if r ≤ 0x7F then [r]
  else if r ≤ 0x7FF then [0xC0 + r / 64, 0x80 + r % 64]
  else if 0x10FFFF < r ∨ (0xD800 ≤ r ∧ r ≤ 0xDFFF) then [0xEF, 0xBF, 0xBD]
  else if r ≤ 0xFFFF then [0xE0 + r / 4096, 0x80 + r / 64 % 64, 0x80 + r % 64]
  else [0xF0 + r / 262144, 0x80 + r / 4096 % 64, 0x80 + r / 64 % 64, 0x80 + r % 64]

/-- The rune loop of `strings.Map`: every rune of `s` is replaced by the
encoding of its image, and dropped when the image is negative. -/
def mapRunes (mapping : Nat → Int) : Nat → GoString → GoString
  | 0, _ => []
  | _, [] => []
  | fuel + 1, b0 :: rest =>
    let (c, w) := DecodeRune (b0 :: rest)
    let r := mapping c
    (if 0 ≤ r then EncodeRune r.toNat else []) ++ mapRunes mapping fuel ((b0 :: rest).drop w)

/-- The function `strings.Map`. -/
def Map (mapping : Nat → Int) (s : GoString) : GoString := mapRunes mapping s.length s

/-- The Unicode case tables (`unicode.CaseRanges`), consulted only for runes
above `unicode.MaxASCII`. -/
structure CaseTables where
  /-- Lower-case image of a non-ASCII rune. -/
  lower : Nat → Nat
  /-- Upper-case image of a non-ASCII rune. -/
  upper : Nat → Nat

/-- The function `unicode.ToLower`. -/
def runeToLower (t : CaseTables) (r : Nat) : Int :=
  if r ≤ 0x7F then (if 65 ≤ r ∧ r ≤ 90 then r + 32 else r) else t.lower r

/-- The function `unicode.ToUpper`. -/
def runeToUpper (t : CaseTables) (r : Nat) : Int :=
  if r ≤ 0x7F then (if 97 ≤ r ∧ r ≤ 122 then r - 32 else r) else t.upper r

/-- The ASCII step of `strings.ToLower`: `c += 'a' - 'A'` for `'A' ≤ c ≤ 'Z'`. -/
def asciiLower (c : Nat) : Nat := if 65 ≤ c ∧ c ≤ 90 then c + 32 else c

/-- The ASCII step of `strings.ToUpper`: `c -= 'a' - 'A'` for `'a' ≤ c ≤ 'z'`. -/
def asciiUpper (c : Nat) : Nat := if 97 ≤ c ∧ c ≤ 122 then c - 32 else c

/-- Whether every byte is below `utf8.RuneSelf`. -/
def isASCII (s : GoString) : Bool := s.all (fun c => decide (c < 0x80))

/-- The function `strings.ToLower`: a byte-wise pass for ASCII-only strings,
`Map(unicode.ToLower, s)` otherwise. -/
def ToLower (t : CaseTables) (s : GoString) : GoString :=
  if isASCII s then s.map asciiLower else Map (runeToLower t) s

/-- The function `strings.ToUpper`: a byte-wise pass for ASCII-only strings,
`Map(unicode.ToUpper, s)` otherwise. -/
def ToUpper (t : CaseTables) (s : GoString) : GoString :=
  if isASCII s then s.map asciiUpper else Map (runeToUpper t) s

/-- The function `strings.HasPrefix`. -/
def HasPrefix (s pre : GoString) : Bool :=
  decide (pre.length ≤ s.length) && (s.take pre.length == pre)

/-! ## Package `util` -/

/-- The function `EncodeInteger` of `util/utility.go`; `secs` is the value of
`time.Now().Unix()` read by the call. -/
def EncodeInteger (t : CaseTables) (secs : Int) (key : Int) : GoString :=
  let r1 := Int.tmod secs 16
  let r2 := Int.tmod (Int.tdiv secs 100) 16
  let mkey := wrapInt64 (wrapInt64 (key + wrapInt64 (wrapInt64 (r1 + 1) * 300)) + r2)
  ToUpper t (FormatInt r1 16 ++ FormatInt mkey 16 ++ FormatInt r2 16)

/-- The function `DecodeInteger` of `util/utility.go`. -/
def DecodeInteger (key : GoString) : Int :=
  if key.length < 3 then 0
  else
    let kl := key.length
    let r1 := (ParseInt (slice key 0 1) 16 64).1
    let r2 := (ParseInt (slice key (kl - 1) kl) 16 64).1
    let k := (ParseInt (slice key 1 (kl - 1)) 16 64).1
    wrapInt64 (k - wrapInt64 (wrapInt64 (wrapInt64 (r1 + 1) * 300) + r2))

/-- One pass of the loop body of `UniqueInts`: `u` is the output slice built so
far and `m` the `map[int]bool` of values seen, held as its list of entries. -/
def uniqueStep (st : List Int × List (Int × Bool)) (val : Int) : List Int × List (Int × Bool) :=
  if (st.2.lookup val).isNone then (st.1 ++ [val], (val, true) :: st.2) else st

/-- The function `UniqueInts` of `util/utility.go`. -/
def UniqueInts (input : List Int) : List Int := (input.foldl uniqueStep ([], [])).1

/-! ## Package `secrets` -/

/-- A Go `error` value. -/
inductive GoError
  /-- The value `errors.New(text)`. -/
  | errorsNew (text : String)
  /-- The value `fmt.Errorf(format, arg)` for a format with one `%v` verb. -/
  | errorf (format : String) (arg : GoError)
  /-- An error produced outside the package (OS, SDK, JSON decoder). -/
  | external (code : Nat)
  deriving DecidableEq, Repr

/-- One element of `Secrets.Records`. -/
structure Record where
  /-- Field `Key`. -/
  Key : GoString
  /-- Field `Value`. -/
  Value : GoString
  deriving DecidableEq, Repr

/-- The struct `Secrets` of `secrets/secrets.go`. -/
structure Secrets where
  /-- Field `ConfigName`. -/
  ConfigName : GoString
  /-- Field `Records`. -/
  Records : List Record
  deriving DecidableEq, Repr

/-- An I/O step the package performs. -/
inductive Effect
  /-- A call of `ioutil.ReadFile(path)`. -/
  | readFile (path : GoString)
  /-- A call of `secretmanager.NewClient`. -/
  | newClient
  /-- A call of `client.AccessSecretVersion` for the resource `name`. -/
  | accessSecretVersion (name : GoString)
  deriving DecidableEq, Repr

/-- Whether an I/O step is a local file read. -/
def Effect.isFileRead : Effect → Bool
  | .readFile _ => true
  | _ => false

/-- Whether an I/O step talks to the cloud secret manager. -/
def Effect.isCloud : Effect → Bool
  | .readFile _ => false
  | _ => true

/-- Everything outside the package that its functions consult. -/
structure World where
  /-- The process environment (`none` for an unset variable). -/
  env : GoString → Option GoString
  /-- The result of `ioutil.ReadFile`. -/
  readFile : GoString → GoString × Option GoError
  /-- The error of `secretmanager.NewClient` (`none` when the client is built). -/
  newClient : Option GoError
  /-- The result of `client.AccessSecretVersion`: the payload data of the
  response (`none` for a nil response) and the error. -/
  accessSecretVersion : GoString → Option GoString × Option GoError
  /-- The result of `json.Unmarshal(data, &s)` on a fresh `s`: the pointer `s`
  afterwards (`none` when the document is `null`) and the error. -/
  unmarshal : GoString → Option Secrets × Option GoError

/-- The function `os.Getenv`: the empty string for an unset variable. -/
def World.Getenv (w : World) (name : GoString) : GoString := (w.env name).getD []

/-- The loop of `Secrets.GetString` over the records. -/
def getStringLoop (key : GoString) : List Record → GoString
  | [] => []
  | r :: rs => if r.Key = key then r.Value else getStringLoop key rs

/-- The method `Secrets.GetString`. -/
def Secrets.GetString (s : Secrets) (key : GoString) : GoString := getStringLoop key s.Records

/-- The loop of `Secrets.KeyExists` over the records. -/
def keyExistsLoop (key : GoString) : List Record → Bool
  | [] => false
  | r :: rs => if r.Key = key then true else keyExistsLoop key rs

/-- The method `Secrets.KeyExists`. -/
def Secrets.KeyExists (s : Secrets) (key : GoString) : Bool := keyExistsLoop key s.Records

/-- The method `Secrets.GetBool`. -/
def Secrets.GetBool (t : CaseTables) (s : Secrets) (key : GoString) : Bool :=
  let v := s.GetString key
  decide (0 < v.length) && decide (ToLower t v = lit "true")

/-- The method `Secrets.GetInt`. -/
def Secrets.GetInt (s : Secrets) (key : GoString) : Int :=
  let v := s.GetString key
  if 0 < v.length then
    match Atoi v with
    | (i, none) => i
    | (_, some _) => 0
  else 0

/-- The function `getGCPSecretsData`, with the I/O steps it performs. -/
def getGCPSecretsData (w : World) (name : GoString) :
    (GoString × Option GoError) × List Effect :=
  match w.newClient with
  | some e1 =>
    (([], some (.errorf "failed to create secretmanager client: %v" e1)), [.newClient])
  | none =>
    match w.accessSecretVersion name with
    | (some data, none) => ((data, none), [.newClient, .accessSecretVersion name])
    | (_, e2) => (([], e2), [.newClient, .accessSecretVersion name])

/-- The function `getSecretData`, with the I/O steps it performs. -/
def getSecretData (w : World) (fname : GoString) :
    (GoString × Option GoError) × List Effect :=
  if fname.length = 0 then
    (([], some (.errorsNew "blank filename passed to secrets.GetFile")), [])
  else if HasPrefix fname (lit "projects/") then getGCPSecretsData w fname
  else (w.readFile fname, [.readFile fname])

/-- The function `Parse`. -/
def Parse (w : World) (data : GoString) : Option Secrets × Option GoError :=
  if data.length = 0 then (none, some (.errorsNew "no data passed to parse"))
  else
    match w.unmarshal data with
    | (_, some e2) => (none, some e2)
    | (s, none) => (s, none)

/-- The function `Initialize`, with the I/O steps it performs. -/
def Initialize (w : World) (location : GoString) :
    (Option Secrets × Option GoError) × List Effect :=
  if location.length = 0 then
    ((none, some (.errorsNew "secrets location not specified")), [])
  else
    match getSecretData w location with
    | ((_, some e), fx) => ((none, some e), fx)
    | ((b, none), fx) => (Parse w b, fx)

/-- The function `InitializeFromEnvironment`, with the I/O steps it performs. -/
def InitializeFromEnvironment (w : World) (ev : GoString) :
    (Option Secrets × Option GoError) × List Effect :=
  Initialize w (w.Getenv ev)

/-- The method `Secrets.GetFile`, with the I/O steps it performs. -/
def Secrets.GetFile (w : World) (s : Secrets) (key : GoString) :
    (GoString × Option GoError) × List Effect :=
  getSecretData w (s.GetString key)

/-! ## Package `util`, continued -/

/-- The loop of `IntSliceToCSV`: `x` is the index of the element `n` reached
and `b` the buffer; `strconv.AppendInt(b, n, 10)` appends `FormatInt(n, 10)`. -/
def csvLoop : Nat → List Int → GoString → GoString
  | _, [], b => b
  | x, n :: ns, b =>
    let b1 := if 0 < x then b ++ [44] else b
    csvLoop (x + 1) ns (b1 ++ FormatInt n 10)

/-- The function `IntSliceToCSV` of `util/utility.go`. -/
def IntSliceToCSV (ns : List Int) : GoString :=
  if ns.length = 0 then [] else csvLoop 0 ns []

/-- The function `Filter` of `util/utility.go`. -/
def Filter (vs : List GoString) (f : GoString → Bool) : List GoString :=
  vs.foldl (fun vsf v => if f v then vsf ++ [v] else vsf) []

/-- The function `strings.Contains` for a one-byte substring. -/
def ContainsByte (v : GoString) (c : Nat) : Bool := v.contains c

/-- The function `StringsDiff` of `util/utility.go`; the `map[string]bool`
is held as its list of entries. -/
def StringsDiff (a b : List GoString) : List GoString :=
  let m : List (GoString × Bool) := b.foldl (fun m item => (item, true) :: m) []
  a.foldl (fun diff item => if (m.lookup item).isNone then diff ++ [item] else diff) []

/-- The Go slice expression `s[lo:hi]` with its bounds check; `none` stands for
the run-time panic "slice bounds out of range". -/
def sliceChecked (s : GoString) (lo hi : Int) : Option GoString :=
  if 0 ≤ lo ∧ lo ≤ hi ∧ hi ≤ (s.length : Int) then some (slice s lo.toNat hi.toNat) else none

/-- The function `DecodeInteger` of `util/utility.go` with the bounds checks
of its three slice expressions; `none` stands for a run-time panic. -/
def DecodeIntegerChecked (key : GoString) : Option Int :=
  if key.length < 3 then some 0
  else
    let kl : Int := key.length
    match sliceChecked key 0 1, sliceChecked key (kl - 1) kl, sliceChecked key 1 (kl - 1) with
    | some s1, some s2, some s3 =>
      let r1 := (ParseInt s1 16 64).1
      let r2 := (ParseInt s2 16 64).1
      let k := (ParseInt s3 16 64).1
      some (wrapInt64 (k - wrapInt64 (wrapInt64 (wrapInt64 (r1 + 1) * 300) + r2)))
    | _, _, _ => none

/-- The value `os.Stat` hands back for a file that exists (`os.FileInfo`). -/
structure FileInfo where
  /-- The method `IsDir`. -/
  isDir : Bool
  deriving DecidableEq, Repr

/-- The part of package `os` that `FileExists` consults. -/
structure FileSystem where
  /-- The result of `os.Stat`: the file info (`none` for nil) and the error. -/
  Stat : GoString → Option FileInfo × Option GoError
  /-- The function `os.IsNotExist` on a non-nil error. -/
  IsNotExist : GoError → Bool

/-- The function `FileExists` of `util/utility.go`; `none` stands for the
run-time panic of calling `IsDir` on a nil `os.FileInfo`. -/
def FileExists (fs : FileSystem) (filename : GoString) : Option Bool :=
  match fs.Stat filename with
  | (info, err) =>
    if (match err with
        | none => false
        | some e => fs.IsNotExist e) then some false
    else
      match info with
      | none => none
      | some i => some (!i.isDir)

/-! ## Package `storage` -/

/-- The function `strings.HasSuffix`. -/
def HasSuffix (s suffix : GoString) : Bool :=
  decide (suffix.length ≤ s.length) && (s.drop (s.length - suffix.length) == suffix)

/-- The fields of `storage.ObjectAttrs` the package reads; `Created` is an
instant in nanoseconds since the Unix epoch. -/
structure ObjectAttrs where
  /-- Field `Name`. -/
  Name : GoString
  /-- Field `Created`. -/
  Created : Int
  deriving DecidableEq, Repr

/-- What a `storage.ObjectIterator` yields: the objects `Next` returns, in
order, and the error that follows them (`none` for `iterator.Done`). -/
structure ObjectListing where
  /-- The objects returned before the iterator ends. -/
  items : List ObjectAttrs
  /-- The error that ends the iteration, `none` for `iterator.Done`. -/
  err : Option GoError
  deriving DecidableEq, Repr

/-- The bucket behind `cs.bucket`, as the SDK presents it. -/
structure Bucket where
  /-- The iterator `Objects(ctx, &storage.Query{Prefix: path})`. -/
  Objects : GoString → ObjectListing
  /-- The result of `Object(fn).Delete(ctx)`, given the names on which `Delete`
  was called earlier in the same run. -/
  Delete : List GoString → GoString → Option GoError

/-- The loop of `GetFiles` over the iterator. -/
def getFilesLoop : List ObjectAttrs → Option GoError → List GoString →
    List GoString × Option GoError
  | [], none, result => (result, none)
  | [], some err, _ => ([], some err)
  | objAttrs :: rest, e, result => getFilesLoop rest e (result ++ [objAttrs.Name])

/-- The method `CStore.GetFiles`. -/
def GetFiles (b : Bucket) (path : GoString) : List GoString × Option GoError :=
  getFilesLoop (b.Objects path).items (b.Objects path).err []

/-- The loop of `GetFileInfo` over the iterator. -/
def getFileInfoLoop : List ObjectAttrs → Option GoError → List ObjectAttrs →
    List ObjectAttrs × Option GoError
  | [], none, result => (result, none)
  | [], some err, _ => ([], some err)
  | objAttrs :: rest, e, result => getFileInfoLoop rest e (result ++ [objAttrs])

/-- The method `CStore.GetFileInfo`. -/
def GetFileInfo (b : Bucket) (path : GoString) : List ObjectAttrs × Option GoError :=
  getFileInfoLoop (b.Objects path).items (b.Objects path).err []

/-- The loop of `GetFilesWithSuffix` over the iterator. -/
def getFilesWithSuffixLoop (suffix : GoString) : List ObjectAttrs → Option GoError →
    List GoString → List GoString × Option GoError
  | [], none, result => (result, none)
  | [], some err, _ => ([], some err)
  | objAttrs :: rest, e, result =>
    getFilesWithSuffixLoop suffix rest e
      (if HasSuffix objAttrs.Name suffix then result ++ [objAttrs.Name] else result)

/-- The method `CStore.GetFilesWithSuffix`. -/
def GetFilesWithSuffix (b : Bucket) (path suffix : GoString) : List GoString × Option GoError :=
  getFilesWithSuffixLoop suffix (b.Objects path).items (b.Objects path).err []

/-- The method `CStore.DeleteCloudFile`, after the earlier `Delete` calls `calls`. -/
def DeleteCloudFile (b : Bucket) (calls : List GoString) (fn : GoString) : Option GoError :=
  match b.Delete calls fn with
  | some err => some err
  | none => none

/-- The constant `time.Hour`, in nanoseconds. -/
def Hour : Int := 3600000000000

/-- The expression `time.Now().Add(time.Duration(ageh*-1) * time.Hour)` of
`DeleteOldFiles`, for the clock reading `now` in nanoseconds since the epoch;
the product is an `int64` and wraps. -/
def timeLimit (now ageh : Int) : Int := now + wrapInt64 (wrapInt64 (ageh * -1) * Hour)

/-- The loop of `DeleteOldFiles`: `result` counts the deletions done and
`calls` lists the names on which `Delete` was called. The count never exceeds
`len(oa)`, so `result++` cannot overflow. -/
def deleteOldLoop (b : Bucket) (limit : Int) : List ObjectAttrs → Int → List GoString →
    (Int × Option GoError) × List GoString
  | [], result, calls => ((result, none), calls)
  | attrs :: rest, result, calls =>
    if attrs.Created < limit then
      match DeleteCloudFile b calls attrs.Name with
      | none => deleteOldLoop b limit rest (result + 1) (calls ++ [attrs.Name])
      | some e2 => ((result, some e2), calls ++ [attrs.Name])
    else deleteOldLoop b limit rest result calls

/-- The method `CStore.DeleteOldFiles`, with the names on which it called
`Delete`; `now` is the value of `time.Now()` read by the call. -/
def DeleteOldFiles (b : Bucket) (now : Int) (path : GoString) (ageh : Int) :
    (Int × Option GoError) × List GoString :=
  let limit := timeLimit now ageh
  match GetFileInfo b path with
  | (_, some err) => ((0, some err), [])
  | (oa, none) => deleteOldLoop b limit oa 0 []

/-- A `*storage.Client`, named by the order in which the SDK built it. -/
abbrev Client := Nat

/-- The struct `CStore`; `bucket` holds the client and name of the handle. -/
structure CStore where
  /-- Field `client` (`none` for nil). -/
  client : Option Client
  /-- Field `bucket` (`none` for nil). -/
  bucket : Option (Client × GoString)
  /-- Field `credentials`. -/
  credentials : GoString
  deriving DecidableEq, Repr

/-- The package state: the variable `defaultClient` and the number of
`storage.NewClient` calls made so far. -/
structure PkgState where
  /-- The package variable `defaultClient` (`none` for nil). -/
  defaultClient : Option Client
  /-- How many times `storage.NewClient` has been called. -/
  clientsBuilt : Nat
  deriving DecidableEq, Repr

/-- The outcome of one `storage.NewClient` call: a client, or an error with a
nil client. -/
inductive NewClientResult
  /-- A client and a nil error. -/
  | ok (c : Client)
  /-- A nil client and an error. -/
  | fail (err : GoError)
  deriving DecidableEq, Repr

/-- The function `NewCStoreP`; `sdk` is what `storage.NewClient` returns if it
is called. -/
def NewCStoreP (sdk : NewClientResult) (st : PkgState) (bucketName : GoString) :
    (Option CStore × Option GoError) × PkgState :=
  if bucketName.length = 0 then ((none, some (.errorsNew "invalid parameter(s)")), st)
  else
    match st.defaultClient with
    | none =>
      match sdk with
      | .fail err => ((none, some err), ⟨none, st.clientsBuilt + 1⟩)
      | .ok c => ((some ⟨some c, some (c, bucketName), []⟩, none), ⟨some c, st.clientsBuilt + 1⟩)
    | some c => ((some ⟨some c, some (c, bucketName), []⟩, none), st)

/-- The function `NewCStore`; `sdk` is what `storage.NewClient` returns if it
is called. -/
def NewCStore (sdk : NewClientResult) (st : PkgState) (cred bucketName : GoString) :
    (Option CStore × Option GoError) × PkgState :=
  if cred.length = 0 ∨ bucketName.length = 0 then
    ((none, some (.errorsNew "invalid parameter(s)")), st)
  else
    match sdk with
    | .fail err => ((some ⟨none, none, cred⟩, some err), ⟨st.defaultClient, st.clientsBuilt + 1⟩)
    | .ok c =>
      ((some ⟨some c, some (c, bucketName), cred⟩, none),
        ⟨if st.defaultClient = none then some c else st.defaultClient, st.clientsBuilt + 1⟩)

/-- A call into the package that can touch `defaultClient`, with the outcome
the SDK has ready for it. -/
inductive PkgCall
  /-- A call `NewCStoreP(bucketName)`. -/
  | newCStoreP (sdk : NewClientResult) (bucketName : GoString)
  /-- A call `NewCStore(cred, bucketName)`. -/
  | newCStore (sdk : NewClientResult) (cred bucketName : GoString)
  deriving DecidableEq, Repr

/-- The package state after one call. -/
def PkgCall.step (st : PkgState) : PkgCall → PkgState
  | .newCStoreP sdk bucketName => (NewCStoreP sdk st bucketName).2
  | .newCStore sdk cred bucketName => (NewCStore sdk st cred bucketName).2

/-- The package state after a sequence of calls. -/
def runCalls (st : PkgState) (calls : List PkgCall) : PkgState := calls.foldl PkgCall.step st

/-! ## Definitions used to state the properties -/

/-- The upper-case hexadecimal digit characters. -/
def hexUpper : List Nat := [48, 49, 50, 51, 52, 53, 54, 55, 56, 57, 65, 66, 67, 68, 69, 70]

/-- Digit value of a byte, zero for a non-digit. -/
def hexValue (c : Nat) : Nat := (digitVal c).getD 0

/-- Value of a digit string read most significant digit first, from accumulator `n`. -/
def hexEvalFrom (n : Nat) (l : GoString) : Nat := l.foldl (fun a c => a * 16 + hexValue c) n

/-- ASCII case-insensitive equality of two strings: they agree once the
letters `A`..`Z` are replaced by `a`..`z`. -/
def EqualFoldASCII (a b : GoString) : Prop := a.map asciiLower = b.map asciiLower

/-- Value of a string of decimal digits read most significant digit first,
from accumulator `n`. -/
def decimalValueFrom (n : Nat) (ds : GoString) : Nat := ds.foldl (fun a c => a * 10 + (c - 48)) n

/-- Value of a string of decimal digits. -/
def decimalValue (ds : GoString) : Nat := decimalValueFrom 0 ds

/-- One or more bytes, each a decimal digit `0`..`9`. -/
def DecimalDigits (ds : GoString) : Prop := ds ≠ [] ∧ ∀ c ∈ ds, 48 ≤ c ∧ c ≤ 57

/-- The string `v` is a base-10 integer literal denoting `n`: an optional sign
`+` or `-` followed by one or more decimal digits. -/
def DenotesInt (v : GoString) (n : Int) : Prop :=
  (DecimalDigits v ∧ n = decimalValue v)
    ∨ (∃ ds, v = 43 :: ds ∧ DecimalDigits ds ∧ n = decimalValue ds)
    ∨ (∃ ds, v = 45 :: ds ∧ DecimalDigits ds ∧ n = -(decimalValue ds : Int))

/-- Whether the age `ageh`, in hours, is one whose nanosecond count fits the
`int64` of a `time.Duration`. -/
def AgeFits (ageh : Int) : Prop := -2562047 ≤ ageh ∧ ageh ≤ 2562047

/-! # Theorems -/

theorem digitVal_of_hexUpper : ∀ c ∈ hexUpper, digitVal c = some (hexValue c) ∧ hexValue c < 16 := by
  decide

theorem asciiUpper_digitChar : ∀ d < 16,
    asciiUpper (digitChar d) ∈ hexUpper ∧ hexValue (asciiUpper (digitChar d)) = d
      ∧ digitChar d < 128 := by
  decide

theorem le_hexEvalFrom (l : GoString) : ∀ n, n ≤ hexEvalFrom n l := by
  induction l with
  | nil => intro n; simp [hexEvalFrom]
  | cons c cs ih =>
    intro n
    have h := ih (n * 16 + hexValue c)
    simp only [hexEvalFrom, List.foldl_cons] at h ⊢
    omega

theorem parseUintLoop_hexUpper (l : GoString) : ∀ n, (∀ c ∈ l, c ∈ hexUpper) →
    hexEvalFrom n l < 2 ^ 64 →
    parseUintLoop 16 (2 ^ 64 - 1) (maxUint64 / 16 + 1) l n = (hexEvalFrom n l, none) := by
  induction l with
  | nil => intro n _ _; simp [parseUintLoop, hexEvalFrom]
  | cons c cs ih =>
    intro n hmem hlt
    obtain ⟨hd, hd16⟩ := digitVal_of_hexUpper c (hmem c (List.mem_cons_self _ _))
    have hmono := le_hexEvalFrom cs (n * 16 + hexValue c)
    have hstep : hexEvalFrom n (c :: cs) = hexEvalFrom (n * 16 + hexValue c) cs := by
      simp [hexEvalFrom]
    rw [hstep] at hlt ⊢
    have hcut : maxUint64 / 16 + 1 = 2 ^ 60 := by decide
    have hrec := ih (n * 16 + hexValue c) (fun x hx => hmem x (List.mem_cons_of_mem _ hx)) hlt
    have hsmall : n * 16 + hexValue c < 2 ^ 64 := lt_of_le_of_lt hmono hlt
    have hmod : (n * 16 + hexValue c) % 2 ^ 64 = n * 16 + hexValue c := Nat.mod_eq_of_lt hsmall
    rw [parseUintLoop, hd]
    simp only [hmod]
    rw [if_neg (by omega), if_neg (by rw [hcut]; omega), if_neg (by omega)]
    exact hrec


theorem formatBitsLoop_acc (fuel : Nat) : ∀ u acc,
    formatBitsLoop 16 fuel u acc = formatBitsLoop 16 fuel u [] ++ acc := by
  induction fuel with
  | zero => intro u acc; simp [formatBitsLoop]
  | succ f ih =>
    intro u acc
    simp only [formatBitsLoop]
    split
    · rw [ih (u / 16) (digitChar (u % 16) :: acc), ih (u / 16) [digitChar (u % 16)]]
      simp
    · simp

theorem formatBitsLoop_ne_nil (fuel u : Nat) : formatBitsLoop 16 (fuel + 1) u [] ≠ [] := by
  simp only [formatBitsLoop]
  split
  · rw [formatBitsLoop_acc]; simp
  · simp

theorem hexEvalFrom_snoc (l : GoString) (c : Nat) :
    hexEvalFrom 0 (l ++ [c]) = hexEvalFrom 0 l * 16 + hexValue c := by
  simp [hexEvalFrom, List.foldl_append]

theorem formatBitsLoop_spec (fuel : Nat) : ∀ u, u < 16 ^ fuel →
    (∀ c ∈ formatBitsLoop 16 fuel u [], c < 128 ∧ asciiUpper c ∈ hexUpper)
      ∧ hexEvalFrom 0 ((formatBitsLoop 16 fuel u []).map asciiUpper) = u := by
  induction fuel with
  | zero =>
    intro u hu
    simp only [pow_zero, Nat.lt_one_iff] at hu
    subst hu
    simp [formatBitsLoop, hexEvalFrom]
  | succ f ih =>
    intro u hu
    simp only [formatBitsLoop]
    split
    · have hq : u / 16 < 16 ^ f := by
        rw [pow_succ] at hu
        exact Nat.div_lt_of_lt_mul (by omega)
      have hr : u % 16 < 16 := Nat.mod_lt _ (by decide)
      obtain ⟨h1, h2⟩ := ih (u / 16) hq
      obtain ⟨d1, d2, d3⟩ := asciiUpper_digitChar (u % 16) hr
      rw [formatBitsLoop_acc]
      refine ⟨?_, ?_⟩
      · intro c hc
        rcases List.mem_append.1 hc with hc | hc
        · exact h1 c hc
        · rw [List.mem_singleton] at hc
          subst hc
          exact ⟨d3, d1⟩
      · rw [List.map_append, List.map_singleton, hexEvalFrom_snoc, h2, d2]
        omega
    · have hlt : u < 16 := by omega
      obtain ⟨d1, d2, d3⟩ := asciiUpper_digitChar u hlt
      refine ⟨?_, ?_⟩
      · intro c hc
        rw [List.mem_singleton] at hc
        subst hc
        exact ⟨d3, d1⟩
      · simp [hexEvalFrom, d2]

/-- Parsing the upper-cased base-16 digits of a `uint64` gives the value back. -/
theorem ParseUint_formatBits (u : Nat) (hu : u < 2 ^ 64) :
    ParseUint ((formatBitsLoop 16 64 u []).map asciiUpper) 16 64 = (u, none) := by
  obtain ⟨h1, h2⟩ := formatBitsLoop_spec 64 u (lt_trans hu (by norm_num))
  have hne : (formatBitsLoop 16 64 u []).map asciiUpper ≠ [] := by
    simpa using formatBitsLoop_ne_nil 63 u
  have hmem : ∀ c ∈ (formatBitsLoop 16 64 u []).map asciiUpper, c ∈ hexUpper := by
    intro c hc
    obtain ⟨x, hx, rfl⟩ := List.mem_map.1 hc
    exact (h1 x hx).2
  have hp := parseUintLoop_hexUpper _ 0 hmem (by rw [h2]; exact hu)
  rw [h2] at hp
  unfold ParseUint
  rw [if_neg hne]
  simpa using hp

theorem hexUpper_not_sign : ∀ c ∈ hexUpper, ¬ (c = 43 ∨ c = 45) := by decide

/-- Parsing the upper-cased base-16 text of an `int64` gives the value back. -/
theorem ParseInt_FormatInt (m : Int) (hlo : -2 ^ 63 ≤ m) (hhi : m < 2 ^ 63) :
    ParseInt ((FormatInt m 16).map asciiUpper) 16 64 = (m, none) := by
  by_cases hneg : m < 0
  · have hu : (-m).toNat < 2 ^ 64 := by omega
    have hp := ParseUint_formatBits (-m).toNat hu
    have hup : asciiUpper 45 = 45 := by decide
    have hcast : ((-m).toNat : Int) = -m := by omega
    simp only [FormatInt, if_pos hneg, List.map_cons, hup]
    generalize (-m).toNat = u at hp hu hcast
    have hc : ¬ ((2:Nat) ^ 63 < u) := by
      simp only [not_lt]; omega
    have hm : m = -(u : Int) := by omega
    simp [ParseInt, hp, hc, hm]
    omega
  · have hu : m.toNat < 2 ^ 64 := by omega
    have hp := ParseUint_formatBits m.toNat hu
    obtain ⟨h1, _⟩ := formatBitsLoop_spec 64 m.toNat (lt_trans hu (by norm_num))
    have hne := formatBitsLoop_ne_nil 63 m.toNat
    have hcast : (m.toNat : Int) = m := by omega
    simp only [FormatInt, if_neg hneg]
    generalize m.toNat = u at hp hu hcast h1 hne
    cases hl : formatBitsLoop 16 64 u [] with
    | nil => exact absurd hl hne
    | cons c cs =>
      rw [hl] at hp h1
      have hcs := hexUpper_not_sign _ (h1 c (List.mem_cons_self _ _)).2
      have hc45 : ¬ asciiUpper c = 45 := fun h => hcs (Or.inr h)
      simp only [List.map_cons] at hp ⊢
      simp only [ParseInt, if_neg hcs, hp]
      have hc : ¬ ((2:Nat) ^ 63 ≤ u) := by
        simp only [not_le]; omega
      simp [hc, hc45, ← hcast]
      omega

theorem FormatInt_all_ascii (m : Int) (hlo : -2 ^ 63 ≤ m) (hhi : m < 2 ^ 63) :
    ∀ c ∈ FormatInt m 16, c < 128 := by
  intro c hc
  unfold FormatInt at hc
  split at hc
  · rcases List.mem_cons.1 hc with rfl | hc
    · decide
    · exact ((formatBitsLoop_spec 64 _ (lt_trans (by omega) (by norm_num : 2 ^ 64 < 16 ^ 64))).1 c hc).1
  · exact ((formatBitsLoop_spec 64 _ (lt_trans (by omega) (by norm_num : 2 ^ 64 < 16 ^ 64))).1 c hc).1

theorem FormatInt_ne_nil (m : Int) : FormatInt m 16 ≠ [] := by
  unfold FormatInt
  split
  · simp
  · exact formatBitsLoop_ne_nil 63 _

theorem FormatInt_digit (r : Int) (h0 : 0 ≤ r) (h16 : r < 16) :
    FormatInt r 16 = [digitChar r.toNat] := by
  have h : ¬ (16 ≤ r.toNat) := by omega
  simp [FormatInt, formatBitsLoop, h, not_lt.2 h0]

theorem ParseInt_digit : ∀ d < 16,
    ParseInt [asciiUpper (digitChar d)] 16 64 = ((d : Int), none) ∧ digitChar d < 128 := by
  decide

theorem slice_first (x y : Nat) (m : GoString) :
    slice (x :: (m ++ [y])) 0 1 = [x] := by
  simp [slice]

theorem slice_last (x y : Nat) (m : GoString) :
    slice (x :: (m ++ [y])) ((x :: (m ++ [y])).length - 1) (x :: (m ++ [y])).length = [y] := by
  simp only [slice, List.take_length]
  have h : (x :: (m ++ [y])).length - 1 = (x :: m).length := by simp
  rw [h, ← List.cons_append, List.drop_left]

theorem slice_middle (x y : Nat) (m : GoString) :
    slice (x :: (m ++ [y])) 1 ((x :: (m ++ [y])).length - 1) = m := by
  simp [slice]

theorem DecodeInteger_sandwich (x y : Nat) (m : GoString) (hm : m ≠ []) :
    DecodeInteger (x :: (m ++ [y])) =
      wrapInt64 ((ParseInt m 16 64).1 -
        wrapInt64 (wrapInt64 (wrapInt64 ((ParseInt [x] 16 64).1 + 1) * 300)
          + (ParseInt [y] 16 64).1)) := by
  have hlen : ¬ ((x :: (m ++ [y])).length < 3) := by
    have : 0 < m.length := List.length_pos.2 hm
    simp; omega
  unfold DecodeInteger
  rw [if_neg hlen]
  simp only [slice_first, slice_last, slice_middle]

theorem wrapInt64_range (x : Int) : -2 ^ 63 ≤ wrapInt64 x ∧ wrapInt64 x < 2 ^ 63 := by
  unfold wrapInt64
  omega

theorem ToUpper_of_ascii (t : CaseTables) (s : GoString) (h : ∀ c ∈ s, c < 128) :
    ToUpper t s = s.map asciiUpper := by
  have : isASCII s = true := by
    simp only [isASCII, List.all_eq_true, decide_eq_true_eq]
    exact h
  simp [ToUpper, this]

/-- C1: for every `int` key and every clock reading with non-negative Unix
seconds, decoding the encoded key gives the key back. -/
theorem DecodeInteger_EncodeInteger (t : CaseTables) (secs key : Int) (hsecs : 0 ≤ secs)
    (hlo : -2 ^ 63 ≤ key) (hhi : key < 2 ^ 63) :
    DecodeInteger (EncodeInteger t secs key) = key := by
  have ha0 : 0 ≤ Int.tmod secs 16 := Int.tmod_nonneg _ hsecs
  have ha1 : Int.tmod secs 16 < 16 := Int.tmod_lt_of_pos _ (by decide)
  have hb0 : 0 ≤ Int.tmod (Int.tdiv secs 100) 16 :=
    Int.tmod_nonneg _ (Int.tdiv_nonneg hsecs (by decide))
  have hb1 : Int.tmod (Int.tdiv secs 100) 16 < 16 := Int.tmod_lt_of_pos _ (by decide)
  unfold EncodeInteger
  simp only
  generalize Int.tmod secs 16 = r1 at ha0 ha1
  generalize Int.tmod (Int.tdiv secs 100) 16 = r2 at hb0 hb1
  generalize hmk : wrapInt64 (wrapInt64 (key + wrapInt64 (wrapInt64 (r1 + 1) * 300)) + r2) = mkey
  obtain ⟨hm0, hm1⟩ : -2 ^ 63 ≤ mkey ∧ mkey < 2 ^ 63 := hmk ▸ wrapInt64_range _
  obtain ⟨pa, qa⟩ := ParseInt_digit r1.toNat (by omega)
  obtain ⟨pb, qb⟩ := ParseInt_digit r2.toNat (by omega)
  rw [FormatInt_digit r1 ha0 ha1, FormatInt_digit r2 hb0 hb1]
  have hascii : ∀ c ∈ [digitChar r1.toNat] ++ FormatInt mkey 16 ++ [digitChar r2.toNat],
      c < 128 := by
    intro c hc
    simp only [List.mem_append, List.mem_singleton] at hc
    rcases hc with (rfl | hc) | rfl
    · exact qa
    · exact FormatInt_all_ascii mkey hm0 hm1 c hc
    · exact qb
  rw [ToUpper_of_ascii t _ hascii]
  have hshape : List.map asciiUpper
      ([digitChar r1.toNat] ++ FormatInt mkey 16 ++ [digitChar r2.toNat]) =
      asciiUpper (digitChar r1.toNat) ::
        ((FormatInt mkey 16).map asciiUpper ++ [asciiUpper (digitChar r2.toNat)]) := by
    simp
  rw [hshape]
  rw [DecodeInteger_sandwich _ _ _ (by simpa using FormatInt_ne_nil mkey),
    ParseInt_FormatInt mkey hm0 hm1, pa, pb]
  simp only
  have e1 : (r1.toNat : Int) = r1 := by omega
  have e2 : (r2.toNat : Int) = r2 := by omega
  rw [e1, e2, ← hmk]
  unfold wrapInt64
  omega

/-- Witness for C1: the key `-1` encoded at Unix second `1700000123`. -/
theorem DecodeInteger_EncodeInteger_witness :
    DecodeInteger (EncodeInteger ⟨id, id⟩ 1700000123 (-1)) = -1 :=
  DecodeInteger_EncodeInteger ⟨id, id⟩ 1700000123 (-1) (by decide) (by decide) (by decide)

/-- C2: the code decodes the key string `1608CC` to 24104, not to 0. -/
theorem DecodeInteger_1608CC : DecodeInteger (lit "1608CC") = 24104 := by
  decide

/-! ## Record lookup -/

theorem getStringLoop_first (k : GoString) (pre : List Record) (r : Record) (post : List Record)
    (hpre : ∀ x ∈ pre, x.Key ≠ k) (hr : r.Key = k) :
    getStringLoop k (pre ++ r :: post) = r.Value := by
  induction pre with
  | nil => simp [getStringLoop, hr]
  | cons p ps ih =>
    have hp : p.Key ≠ k := hpre p (List.mem_cons_self _ _)
    simp only [List.cons_append, getStringLoop, if_neg hp]
    exact ih (fun x hx => hpre x (List.mem_cons_of_mem _ hx))

theorem getStringLoop_absent (k : GoString) (rs : List Record) (h : ∀ x ∈ rs, x.Key ≠ k) :
    getStringLoop k rs = [] := by
  induction rs with
  | nil => rfl
  | cons p ps ih =>
    have hp : p.Key ≠ k := h p (List.mem_cons_self _ _)
    simp only [getStringLoop, if_neg hp]
    exact ih (fun x hx => h x (List.mem_cons_of_mem _ hx))

/-- C3: `GetString` returns the value of the first record, in sequence order,
whose key equals the requested key byte for byte, whatever records follow it,
and the empty string when no record has that key. -/
theorem GetString_first_match (s : Secrets) (k : GoString) :
    (∀ pre r post, s.Records = pre ++ r :: post → (∀ x ∈ pre, x.Key ≠ k) → r.Key = k →
        s.GetString k = r.Value)
      ∧ ((∀ x ∈ s.Records, x.Key ≠ k) → s.GetString k = []) := by
  refine ⟨?_, ?_⟩
  · intro pre r post hs hpre hr
    unfold Secrets.GetString
    rw [hs]
    exact getStringLoop_first k pre r post hpre hr
  · intro h
    exact getStringLoop_absent k s.Records h

/-- Witness for C3: a key carried by the second and fourth record, a key that
differs only in case, and an absent key. -/
theorem GetString_first_match_witness :
    Secrets.GetString ⟨lit "cfg", [⟨lit "a", lit "1"⟩, ⟨lit "Key", lit "first"⟩,
        ⟨lit "key", lit "lower"⟩, ⟨lit "Key", lit "second"⟩]⟩ (lit "Key") = lit "first"
      ∧ Secrets.GetString ⟨lit "cfg", [⟨lit "Key", lit "first"⟩]⟩ (lit "KEY") = [] :=
  ⟨(GetString_first_match ⟨lit "cfg", [⟨lit "a", lit "1"⟩, ⟨lit "Key", lit "first"⟩,
        ⟨lit "key", lit "lower"⟩, ⟨lit "Key", lit "second"⟩]⟩ (lit "Key")).1
      [⟨lit "a", lit "1"⟩] ⟨lit "Key", lit "first"⟩
      [⟨lit "key", lit "lower"⟩, ⟨lit "Key", lit "second"⟩] rfl (by decide) rfl,
    (GetString_first_match ⟨lit "cfg", [⟨lit "Key", lit "first"⟩]⟩ (lit "KEY")).2 (by decide)⟩

/-- C6: `KeyExists` is true exactly when some record has the requested key. -/
theorem KeyExists_iff (s : Secrets) (k : GoString) :
    s.KeyExists k = true ↔ ∃ r ∈ s.Records, r.Key = k := by
  unfold Secrets.KeyExists
  induction s.Records with
  | nil => simp [keyExistsLoop]
  | cons p ps ih =>
    by_cases hp : p.Key = k
    · simp [keyExistsLoop, hp]
    · simp [keyExistsLoop, hp, ih]

/-! ## Fetching and parsing -/

theorem HasPrefix_iff (s p : GoString) : HasPrefix s p = true ↔ p <+: s := by
  unfold HasPrefix
  rw [Bool.and_eq_true, decide_eq_true_eq, beq_iff_eq]
  constructor
  · rintro ⟨_, h⟩
    rw [← h]
    exact List.take_prefix _ _
  · intro h
    refine ⟨h.length_le, ?_⟩
    obtain ⟨r, rfl⟩ := h
    simp

/-- C7: for a non-empty location, `getSecretData` runs the cloud fetch, and
reads no file, exactly when the location starts with `projects/`; otherwise it
reads the location as a file, whole, and contacts no cloud service. Either way
it hands back the bytes and error of that fetch. `Initialize` and `GetFile`
fetch through `getSecretData`. -/
theorem getSecretData_dispatch (w : World) (location : GoString) (hne : location ≠ []) :
    ((lit "projects/" <+: location) →
        getSecretData w location = getGCPSecretsData w location
          ∧ (∃ e ∈ (getSecretData w location).2, e.isCloud = true)
          ∧ (∀ e ∈ (getSecretData w location).2, e.isFileRead = false))
      ∧ (¬ (lit "projects/" <+: location) →
        getSecretData w location = (w.readFile location, [Effect.readFile location]))
      ∧ (w.newClient = none → ∀ data, w.accessSecretVersion location = (some data, none) →
          (getGCPSecretsData w location).1 = (data, none))
      ∧ (w.newClient = none → ∀ res e, w.accessSecretVersion location = (res, some e) →
          (getGCPSecretsData w location).1 = ([], some e))
      ∧ (Initialize w location).2 = (getSecretData w location).2
      ∧ (∀ (s : Secrets) k, s.GetFile w k = getSecretData w (s.GetString k)) := by
  have hlen : ¬ (location.length = 0) := by
    simpa [List.length_eq_zero] using hne
  refine ⟨?_, ?_, ?_, ?_, ?_, ?_⟩
  · intro hp
    have h := (HasPrefix_iff location (lit "projects/")).2 hp
    have hget : getSecretData w location = getGCPSecretsData w location := by
      simp [getSecretData, hlen, h]
    rw [hget]
    refine ⟨rfl, ?_, ?_⟩
    · unfold getGCPSecretsData
      split
      · exact ⟨Effect.newClient, by simp, rfl⟩
      · split <;> exact ⟨Effect.newClient, by simp, rfl⟩
    · unfold getGCPSecretsData
      intro e he
      split at he
      · simp at he; subst he; rfl
      · split at he <;> (simp at he; rcases he with rfl | rfl <;> rfl)
  · intro hp
    have h : HasPrefix location (lit "projects/") = false := by
      rw [← Bool.not_eq_true, HasPrefix_iff]
      exact hp
    simp [getSecretData, hlen, h]
  · intro hc data hd
    simp [getGCPSecretsData, hc, hd]
  · intro hc res e hd
    unfold getGCPSecretsData
    rw [hc]
    simp only [hd]
  · unfold Initialize
    rw [if_neg hlen]
    split <;> simp_all
  · intro s k
    rfl

/-- Witness for C7: a cloud resource name. -/
theorem getSecretData_dispatch_witness :
    getSecretData ⟨fun _ => none, fun _ => ([], none), none, fun n => (some n, none),
        fun _ => (none, none)⟩ (lit "projects/p/secrets/s/versions/1")
      = ((lit "projects/p/secrets/s/versions/1", none),
          [Effect.newClient, Effect.accessSecretVersion (lit "projects/p/secrets/s/versions/1")]) :=
  ((getSecretData_dispatch ⟨fun _ => none, fun _ => ([], none), none, fun n => (some n, none),
      fun _ => (none, none)⟩ (lit "projects/p/secrets/s/versions/1") (by decide)).1
      ⟨lit "p/secrets/s/versions/1", by decide⟩).1.trans (by decide)

/-- C8: when the named environment variable is unset or empty,
`InitializeFromEnvironment` returns an error and no `Secrets`, and performs no
file read and no cloud call. -/
theorem InitializeFromEnvironment_unset (w : World) (ev : GoString)
    (h : w.env ev = none ∨ w.env ev = some []) :
    InitializeFromEnvironment w ev =
      ((none, some (GoError.errorsNew "secrets location not specified")), []) := by
  have hg : w.Getenv ev = [] := by
    rcases h with h | h <;> simp [World.Getenv, h]
  simp [InitializeFromEnvironment, Initialize, hg]

/-- Witness for C8: an environment in which no variable is set. -/
theorem InitializeFromEnvironment_unset_witness :
    InitializeFromEnvironment ⟨fun _ => none, fun p => (p, none), none, fun n => (some n, none),
        fun _ => (none, none)⟩ (lit "SECRETS")
      = ((none, some (GoError.errorsNew "secrets location not specified")), []) :=
  InitializeFromEnvironment_unset ⟨fun _ => none, fun p => (p, none), none,
    fun n => (some n, none), fun _ => (none, none)⟩ (lit "SECRETS") (Or.inl rfl)

/-- C9: `Parse` of an empty byte sequence returns an error and no `Secrets`,
whatever the JSON decoder would do. -/
theorem Parse_empty (w : World) :
    Parse w [] = (none, some (GoError.errorsNew "no data passed to parse")) := by
  simp [Parse]

/-! ## `GetBool` -/

theorem DecodeRune_nonascii (b0 : Nat) (rest : GoString) (h : 128 ≤ b0) :
    128 ≤ (DecodeRune (b0 :: rest)).1 ∧ 1 ≤ (DecodeRune (b0 :: rest)).2 := by
  unfold DecodeRune
  simp only [RuneError, isCont, decide_eq_true_eq]
  repeat' split
  all_goals (refine ⟨?_, ?_⟩ <;> simp only [] <;> omega)

theorem EncodeRune_head (r : Nat) : ∃ b ∈ EncodeRune r, (b = r ∧ r < 128) ∨ 128 ≤ b := by
  unfold EncodeRune
  split_ifs
  · exact ⟨r, by simp, Or.inl ⟨rfl, by omega⟩⟩
  · exact ⟨_, List.mem_cons_self _ _, Or.inr (by omega)⟩
  · exact ⟨_, List.mem_cons_self _ _, Or.inr (by omega)⟩
  · exact ⟨_, List.mem_cons_self _ _, Or.inr (by omega)⟩
  · exact ⟨_, List.mem_cons_self _ _, Or.inr (by omega)⟩

theorem not_mem_true_of_large (b : Nat) (h : 128 ≤ b) : b ∉ lit "true" := by
  have hl : lit "true" = [116, 114, 117, 101] := by decide
  rw [hl]
  simp
  omega

/-- Lower-casing a string that holds a non-ASCII byte rune by rune leaves a
byte that is no letter of `true`. -/
theorem mapRunes_nonascii (t : CaseTables) (ht : ∀ r, 128 ≤ r → t.lower r ∉ lit "true")
    (fuel : Nat) : ∀ s : GoString, s.length ≤ fuel → (∃ b ∈ s, 128 ≤ b) →
      ∃ b ∈ mapRunes (runeToLower t) fuel s, b ∉ lit "true" := by
  induction fuel with
  | zero =>
    intro s hlen hs
    obtain ⟨b, hb, _⟩ := hs
    have : s = [] := List.length_eq_zero.1 (by omega)
    subst this
    simp at hb
  | succ f ih =>
    intro s hlen hs
    cases s with
    | nil =>
      obtain ⟨b, hb, _⟩ := hs
      simp at hb
    | cons b0 rest =>
      by_cases h0 : b0 < 128
      · have hdec : DecodeRune (b0 :: rest) = (b0, 1) := by
          simp [DecodeRune, h0]
        have hrest : ∃ b ∈ rest, 128 ≤ b := by
          obtain ⟨b, hb, hb128⟩ := hs
          rcases List.mem_cons.1 hb with rfl | hb
          · omega
          · exact ⟨b, hb, hb128⟩
        obtain ⟨b, hb, hbad⟩ := ih rest (by simpa using hlen) hrest
        refine ⟨b, ?_, hbad⟩
        simp only [mapRunes, hdec, List.drop_succ_cons, List.drop_zero]
        exact List.mem_append_right _ hb
      · obtain ⟨hc, _⟩ := DecodeRune_nonascii b0 rest (by omega)
        rcases hd : DecodeRune (b0 :: rest) with ⟨c, w⟩
        rw [hd] at hc
        simp only at hc
        have hr : runeToLower t c = (t.lower c : Int) := by
          have : ¬ c ≤ 127 := by omega
          simp [runeToLower, this]
        obtain ⟨b, hb, hb'⟩ := EncodeRune_head (t.lower c)
        refine ⟨b, ?_, ?_⟩
        · simp only [mapRunes, hd, hr]
          refine List.mem_append_left _ ?_
          simpa using hb
        · rcases hb' with ⟨rfl, _⟩ | hb'
          · exact ht c hc
          · exact not_mem_true_of_large b hb'

theorem ToLower_of_ascii (t : CaseTables) (s : GoString) (h : isASCII s = true) :
    ToLower t s = s.map asciiLower := by
  simp [ToLower, h]

theorem isASCII_of_fold_true (v : GoString) (h : v.map asciiLower = lit "true") :
    isASCII v = true := by
  simp only [isASCII, List.all_eq_true, decide_eq_true_eq]
  intro b hb
  have hm : asciiLower b ∈ lit "true" := h ▸ List.mem_map_of_mem _ hb
  by_contra hlarge
  have hge : 128 ≤ asciiLower b := by
    unfold asciiLower
    split_ifs <;> omega
  exact not_mem_true_of_large _ hge hm

theorem GetBool_of_ascii (t : CaseTables) (s : Secrets) (k : GoString)
    (h : isASCII (s.GetString k) = true) :
    s.GetBool t k = (decide (0 < (s.GetString k).length)
      && decide ((s.GetString k).map asciiLower = lit "true")) := by
  unfold Secrets.GetBool
  simp only [ToLower_of_ascii t _ h]

/-- C4: `GetBool` is true exactly when the value `GetString` returns is
non-empty and equal to `true` up to ASCII letter case, given that the Unicode
tables send no non-ASCII rune to a letter of `true`. So `True` and `TRUE` give
true, and `1`, `yes`, the empty value and an absent key give false. -/
theorem GetBool_iff (t : CaseTables) (ht : ∀ r, 128 ≤ r → t.lower r ∉ lit "true")
    (s : Secrets) (k : GoString) :
    (s.GetBool t k = true ↔ s.GetString k ≠ [] ∧ EqualFoldASCII (s.GetString k) (lit "true"))
      ∧ Secrets.GetBool t ⟨[], [⟨lit "b", lit "True"⟩]⟩ (lit "b") = true
      ∧ Secrets.GetBool t ⟨[], [⟨lit "b", lit "TRUE"⟩]⟩ (lit "b") = true
      ∧ Secrets.GetBool t ⟨[], [⟨lit "b", lit "1"⟩]⟩ (lit "b") = false
      ∧ Secrets.GetBool t ⟨[], [⟨lit "b", lit "yes"⟩]⟩ (lit "b") = false
      ∧ Secrets.GetBool t ⟨[], [⟨lit "b", lit ""⟩]⟩ (lit "b") = false
      ∧ Secrets.GetBool t ⟨[], [⟨lit "b", lit "true"⟩]⟩ (lit "absent") = false := by
  have hfold : (lit "true").map asciiLower = lit "true" := by decide
  refine ⟨?_, ?_, ?_, ?_, ?_, ?_, ?_⟩
  · unfold Secrets.GetBool EqualFoldASCII
    simp only [Bool.and_eq_true, decide_eq_true_eq, hfold]
    generalize s.GetString k = v
    by_cases ha : isASCII v = true
    · rw [ToLower_of_ascii t v ha, List.length_pos]
    · constructor
      · rintro ⟨_, h⟩
        exfalso
        have hex : ∃ b ∈ v, 128 ≤ b := by
          simp only [isASCII, List.all_eq_true, decide_eq_true_eq, not_forall] at ha
          obtain ⟨b, hb, hb'⟩ := ha
          exact ⟨b, hb, by omega⟩
        obtain ⟨b, hb, hbad⟩ := mapRunes_nonascii t ht v.length v le_rfl hex
        have hlow : ToLower t v = mapRunes (runeToLower t) v.length v := by
          simp [ToLower, ha, Map]
        rw [hlow] at h
        exact hbad (h ▸ hb)
      · rintro ⟨_, h⟩
        exact absurd (isASCII_of_fold_true v h) ha
  all_goals exact (GetBool_of_ascii t _ _ (by decide)).trans (by decide)

/-- Witness for C4: case tables that send the Kelvin sign to `k` and the dotted
capital I to `i`, and a value spelled `tRuE`. -/
theorem GetBool_iff_witness :
    Secrets.GetBool ⟨fun r => if r = 0x212A then 107 else if r = 0x130 then 105 else r, id⟩
      ⟨lit "cfg", [⟨lit "BoolKey", lit "tRuE"⟩]⟩ (lit "BoolKey") = true :=
  (GetBool_iff ⟨fun r => if r = 0x212A then 107 else if r = 0x130 then 105 else r, id⟩
    (by
      intro r hr
      have hl : lit "true" = [116, 114, 117, 101] := by decide
      rw [hl]
      simp only
      split_ifs <;> first | (simp; done) | (simp; omega))
    ⟨lit "cfg", [⟨lit "BoolKey", lit "tRuE"⟩]⟩ (lit "BoolKey")).1.2
    ⟨by decide, by unfold EqualFoldASCII; decide⟩

/-! ## `GetInt` -/

theorem digitVal_of_digit (c : Nat) (h : 48 ≤ c ∧ c ≤ 57) : digitVal c = some (c - 48) := by
  simp [digitVal, h]

theorem digit_of_digitVal (c d : Nat) (h : digitVal c = some d) (hd : d < 10) :
    (48 ≤ c ∧ c ≤ 57) ∧ d = c - 48 := by
  unfold digitVal at h
  split_ifs at h with h1 h2
  · simp only [Option.some.injEq] at h
    exact ⟨h1, h.symm⟩
  · simp only [Option.some.injEq] at h
    omega

theorem le_decimalValueFrom (l : GoString) : ∀ n, n ≤ decimalValueFrom n l := by
  induction l with
  | nil => intro n; simp [decimalValueFrom]
  | cons c cs ih =>
    intro n
    have h := ih (n * 10 + (c - 48))
    simp only [decimalValueFrom, List.foldl_cons] at h ⊢
    omega

theorem decimalValueFrom_cons (n c : Nat) (cs : GoString) :
    decimalValueFrom n (c :: cs) = decimalValueFrom (n * 10 + (c - 48)) cs := by
  simp [decimalValueFrom]

theorem cutoff10 : maxUint64 / 10 + 1 = 1844674407370955162 := by decide

/-- The digit loop accepts a string of decimal digits whose value fits in 64 bits. -/
theorem parseUintLoop_decimal (l : GoString) : ∀ n, (∀ c ∈ l, 48 ≤ c ∧ c ≤ 57) →
    decimalValueFrom n l < 2 ^ 64 →
    parseUintLoop 10 (2 ^ 64 - 1) (maxUint64 / 10 + 1) l n = (decimalValueFrom n l, none) := by
  induction l with
  | nil => intro n _ _; simp [parseUintLoop, decimalValueFrom]
  | cons c cs ih =>
    intro n hmem hlt
    have hc := hmem c (List.mem_cons_self _ _)
    have hmono := le_decimalValueFrom cs (n * 10 + (c - 48))
    rw [decimalValueFrom_cons] at hlt ⊢
    have hrec := ih (n * 10 + (c - 48)) (fun x hx => hmem x (List.mem_cons_of_mem _ hx)) hlt
    have hsmall : n * 10 + (c - 48) < 2 ^ 64 := lt_of_le_of_lt hmono hlt
    have hmod : (n * 10 + (c - 48)) % 2 ^ 64 = n * 10 + (c - 48) := Nat.mod_eq_of_lt hsmall
    rw [parseUintLoop, digitVal_of_digit c hc]
    simp only [hmod]
    rw [if_neg (by omega), if_neg (by rw [cutoff10]; omega), if_neg (by omega)]
    exact hrec

/-- Whatever the digit loop returns without error is the value of a string of
decimal digits; with a range error it returns the largest `uint64`. -/
theorem parseUintLoop_decimal_inv (l : GoString) : ∀ n v e,
    parseUintLoop 10 (2 ^ 64 - 1) (maxUint64 / 10 + 1) l n = (v, e) →
    (e = none → (∀ c ∈ l, 48 ≤ c ∧ c ≤ 57) ∧ v = decimalValueFrom n l ∧ (n < 2 ^ 64 → v < 2 ^ 64))
      ∧ (e = some .outOfRange → v = 2 ^ 64 - 1) := by
  induction l with
  | nil =>
    intro n v e h
    simp only [parseUintLoop, Prod.mk.injEq] at h
    obtain ⟨rfl, rfl⟩ := h
    simp [decimalValueFrom]
  | cons c cs ih =>
    intro n v e h
    rw [parseUintLoop] at h
    cases hd : digitVal c with
    | none =>
      rw [hd] at h
      simp only [Prod.mk.injEq] at h
      obtain ⟨_, rfl⟩ := h
      simp
    | some d =>
      rw [hd] at h
      simp only at h
      split_ifs at h with h1 h2 h3
      · simp only [Prod.mk.injEq] at h
        obtain ⟨_, rfl⟩ := h
        simp
      · simp only [Prod.mk.injEq] at h
        obtain ⟨rfl, rfl⟩ := h
        simp
      · simp only [Prod.mk.injEq] at h
        obtain ⟨rfl, rfl⟩ := h
        simp
      · obtain ⟨hdig, hdv⟩ := digit_of_digitVal c d hd (by omega)
        rw [cutoff10] at h2
        have hmod : (n * 10 + d) % 2 ^ 64 = n * 10 + d := by omega
        rw [hmod] at h
        obtain ⟨ih1, ih2⟩ := ih (n * 10 + d) v e h
        refine ⟨?_, ih2⟩
        intro he
        obtain ⟨a1, a2, a3⟩ := ih1 he
        refine ⟨?_, ?_, ?_⟩
        · intro x hx
          rcases List.mem_cons.1 hx with rfl | hx
          · exact hdig
          · exact a1 x hx
        · rw [decimalValueFrom_cons, ← hdv]
          exact a2
        · intro _
          exact a3 (by omega)

theorem ParseUint_decimal (ds : GoString) (h : DecimalDigits ds) (hv : decimalValue ds < 2 ^ 64) :
    ParseUint ds 10 0 = (decimalValue ds, none) := by
  unfold ParseUint
  rw [if_neg h.1]
  simp only [if_true, intSize]
  exact parseUintLoop_decimal ds 0 h.2 hv

theorem ParseUint_decimal_inv (body : GoString) (v : Nat) (e : Option NumError)
    (h : ParseUint body 10 0 = (v, e)) :
    (e = none → DecimalDigits body ∧ v = decimalValue body)
      ∧ (e = some .outOfRange → v = 2 ^ 64 - 1) := by
  by_cases h0 : body = []
  · subst h0
    simp only [ParseUint, if_true, Prod.mk.injEq] at h
    obtain ⟨_, rfl⟩ := h
    simp
  · rw [ParseUint, if_neg h0] at h
    obtain ⟨h1, h2⟩ := parseUintLoop_decimal_inv body 0 v e h
    exact ⟨fun he => ⟨⟨h0, (h1 he).1⟩, (h1 he).2.1⟩, h2⟩

theorem DecimalDigits_head {c : Nat} {cs : GoString} (h : DecimalDigits (c :: cs)) :
    ¬ (c = 43 ∨ c = 45) := by
  have := h.2 c (List.mem_cons_self _ _)
  omega

/-- `Atoi` returns `n` without error on a literal denoting an `n` that fits in `int`. -/
theorem Atoi_of_denotes (v : GoString) (n : Int) (h : DenotesInt v n)
    (hlo : -2 ^ 63 ≤ n) (hhi : n < 2 ^ 63) : Atoi v = (n, none) := by
  unfold Atoi
  rcases h with ⟨hd, hn⟩ | ⟨ds, rfl, hd, hn⟩ | ⟨ds, rfl, hd, hn⟩
  · cases v with
    | nil => exact absurd rfl hd.1
    | cons c cs =>
      have hs := DecimalDigits_head hd
      have hc : ¬ c = 45 := fun h => hs (Or.inr h)
      have hp := ParseUint_decimal (c :: cs) hd (by omega)
      generalize decimalValue (c :: cs) = u at hp hn
      subst hn
      have hcut : ¬ ((2 : Nat) ^ 63 ≤ u) := by
        simp only [not_le]; omega
      have hc43 : ¬ c = 43 := fun h => hs (Or.inl h)
      simp [ParseInt, hc43, hc, hp, intSize, hcut]
      omega
  · have hp := ParseUint_decimal ds hd (by omega)
    generalize decimalValue ds = u at hp hn
    subst hn
    have hcut : ¬ ((2 : Nat) ^ 63 ≤ u) := by
      simp only [not_le]; omega
    simp [ParseInt, hp, intSize, hcut]
    omega
  · have hp := ParseUint_decimal ds hd (by omega)
    generalize decimalValue ds = u at hp hn
    subst hn
    have hcut : ¬ ((2 : Nat) ^ 63 < u) := by
      simp only [not_lt]; omega
    simp [ParseInt, hp, intSize, hcut]
    omega

/-- What `Atoi` returns without error is denoted by its argument and fits in `int`. -/
theorem Atoi_inv (v : GoString) (i : Int) (h : Atoi v = (i, none)) :
    DenotesInt v i ∧ -2 ^ 63 ≤ i ∧ i < 2 ^ 63 := by
  unfold Atoi ParseInt at h
  cases v with
  | nil => simp at h
  | cons c cs =>
    simp only at h
    rcases hp : ParseUint (if c = 43 ∨ c = 45 then cs else c :: cs) 10 0 with ⟨un, err⟩
    rw [hp] at h
    simp only [if_true, intSize] at h
    obtain ⟨h1, h2⟩ := ParseUint_decimal_inv _ un err hp
    cases err with
    | some e =>
      cases e with
      | badSyntax => simp at h
      | outOfRange =>
        have hun := h2 rfl
        subst hun
        by_cases hneg : c = 45 <;> simp [hneg] at h
    | none =>
      obtain ⟨hd, hv⟩ := h1 rfl
      simp only [reduceCtorEq, if_false] at h
      split_ifs at h with a1 a2 a3
      · simp at h
      · simp at h
      · have hc45 : c = 45 := of_decide_eq_true a3
        have hle : ¬ ((2 : Nat) ^ 63 < un) := fun hlt => a2 ⟨a3, hlt⟩
        simp only [Prod.mk.injEq, and_true] at h
        subst h
        have hb : (if c = 43 ∨ c = 45 then cs else c :: cs) = cs := by simp [hc45]
        rw [hb] at hd hv
        refine ⟨Or.inr (Or.inr ⟨cs, by rw [hc45], hd, by rw [hv]⟩), ?_, ?_⟩ <;> omega
      · have hc45 : ¬ c = 45 := fun hc => a3 (decide_eq_true hc)
        have hle : ¬ ((2 : Nat) ^ 63 ≤ un) := fun hlt => a1 ⟨a3, hlt⟩
        simp only [Prod.mk.injEq, and_true] at h
        subst h
        by_cases hplus : c = 43
        · have hb : (if c = 43 ∨ c = 45 then cs else c :: cs) = cs := by simp [hplus]
          rw [hb] at hd hv
          refine ⟨Or.inr (Or.inl ⟨cs, by rw [hplus], hd, by rw [hv]⟩), ?_, ?_⟩ <;> omega
        · have hb : (if c = 43 ∨ c = 45 then cs else c :: cs) = c :: cs := by simp [hplus, hc45]
          rw [hb] at hd hv
          refine ⟨Or.inl ⟨hd, by rw [hv]⟩, ?_, ?_⟩ <;> omega

theorem DenotesInt_ne_nil (v : GoString) (n : Int) (h : DenotesInt v n) : 0 < v.length := by
  rcases h with ⟨hd, _⟩ | ⟨ds, rfl, _, _⟩ | ⟨ds, rfl, _, _⟩
  · exact List.length_pos.2 hd.1
  · simp
  · simp

/-- C5 as stated fails: `9223372036854775808` is a base-10 integer literal, yet
`GetInt` returns 0 for it, because `strconv.Atoi` reports a range error. -/
theorem GetInt_literal_counterexample :
    ¬ ∀ (s : Secrets) (k : GoString) (n : Int), DenotesInt (s.GetString k) n → s.GetInt k = n := by
  intro h
  have h1 := h ⟨lit "cfg", [⟨lit "IntKey", lit "9223372036854775808"⟩]⟩ (lit "IntKey")
    9223372036854775808 (Or.inl ⟨⟨by decide, by decide⟩, by decide⟩)
  have h2 : Secrets.GetInt ⟨lit "cfg", [⟨lit "IntKey", lit "9223372036854775808"⟩]⟩
      (lit "IntKey") = 0 := by decide
  rw [h2] at h1
  exact absurd h1 (by decide)

/-- C5, amended: `GetInt` returns `n` when the first-matching value is a base-10
integer literal denoting an `n` in the `int` range `-2^63 .. 2^63-1`, and 0 in
every other case: the key is absent, the value is empty, is no base-10 literal,
or denotes a number outside that range. So `42` gives 42 and `true` gives 0. -/
theorem GetInt_spec (s : Secrets) (k : GoString) :
    (∀ n : Int, DenotesInt (s.GetString k) n → -2 ^ 63 ≤ n → n < 2 ^ 63 → s.GetInt k = n)
      ∧ ((¬ ∃ n : Int, DenotesInt (s.GetString k) n ∧ -2 ^ 63 ≤ n ∧ n < 2 ^ 63) →
          s.GetInt k = 0)
      ∧ Secrets.GetInt ⟨[], [⟨lit "IntKey", lit "42"⟩]⟩ (lit "IntKey") = 42
      ∧ Secrets.GetInt ⟨[], [⟨lit "BoolKey", lit "true"⟩]⟩ (lit "BoolKey") = 0
      ∧ Secrets.GetInt ⟨[], [⟨lit "IntKey", lit ""⟩]⟩ (lit "IntKey") = 0
      ∧ Secrets.GetInt ⟨[], [⟨lit "IntKey", lit "42"⟩]⟩ (lit "absent") = 0 := by
  refine ⟨?_, ?_, by decide, by decide, by decide, by decide⟩
  · intro n hden hlo hhi
    unfold Secrets.GetInt
    simp only [if_pos (DenotesInt_ne_nil _ n hden), Atoi_of_denotes _ n hden hlo hhi]
  · intro hnone
    unfold Secrets.GetInt
    simp only
    split_ifs with hlen
    · rcases hA : Atoi (s.GetString k) with ⟨i, e⟩
      cases e with
      | none =>
        obtain ⟨a, b, c⟩ := Atoi_inv _ i hA
        exact absurd ⟨i, a, b, c⟩ hnone
      | some e => rfl
    · rfl

/-- Witness for C5: the literal `-17` and the non-literal `0x10`. -/
theorem GetInt_spec_witness :
    Secrets.GetInt ⟨lit "cfg", [⟨lit "n", lit "-17"⟩]⟩ (lit "n") = -17
      ∧ Secrets.GetInt ⟨lit "cfg", [⟨lit "n", lit "0x10"⟩]⟩ (lit "n") = 0 :=
  ⟨(GetInt_spec ⟨lit "cfg", [⟨lit "n", lit "-17"⟩]⟩ (lit "n")).1 (-17)
      (Or.inr (Or.inr ⟨lit "17", by decide, ⟨by decide, by decide⟩, by decide⟩))
      (by decide) (by decide),
    (GetInt_spec ⟨lit "cfg", [⟨lit "n", lit "0x10"⟩]⟩ (lit "n")).2.1 (by
      rintro ⟨n, hden, _, _⟩
      have hv : Secrets.GetString ⟨lit "cfg", [⟨lit "n", lit "0x10"⟩]⟩ (lit "n")
          = [48, 120, 49, 48] := by decide
      rw [hv] at hden
      rcases hden with ⟨⟨_, hd⟩, _⟩ | ⟨ds, hcons, _, _⟩ | ⟨ds, hcons, _, _⟩
      · have := hd 120 (by simp)
        omega
      · simp at hcons
      · simp at hcons)⟩

/-! ## `UniqueInts` -/

theorem foldl_uniqueStep_snoc (xs : List Int) (x : Int) :
    (xs ++ [x]).foldl uniqueStep ([], []) = uniqueStep (xs.foldl uniqueStep ([], [])) x := by
  simp [List.foldl_append]

/-- Loop invariant of `UniqueInts` after the prefix `xs` of the input: the map
holds exactly the values of the output, the output holds exactly the values of
`xs`, and it lists them by first occurrence. -/
theorem uniqueInts_invariant (xs : List Int) :
    (∀ v, ((xs.foldl uniqueStep ([], [])).2.lookup v).isNone = true ↔
        v ∉ (xs.foldl uniqueStep ([], [])).1)
      ∧ (∀ v, v ∈ (xs.foldl uniqueStep ([], [])).1 ↔ v ∈ xs)
      ∧ (xs.foldl uniqueStep ([], [])).1.Pairwise (fun a b => xs.indexOf a < xs.indexOf b) := by
  induction xs using List.reverseRecOn with
  | nil => simp
  | append_singleton xs x ih =>
    obtain ⟨hmap, hmem, hord⟩ := ih
    rw [foldl_uniqueStep_snoc]
    generalize xs.foldl uniqueStep ([], []) = st at hmap hmem hord
    obtain ⟨u, m⟩ := st
    simp only at hmap hmem hord
    by_cases hx : (m.lookup x).isNone = true
    · have hxu : x ∉ u := (hmap x).1 hx
      have hxs : x ∉ xs := fun h => hxu ((hmem x).2 h)
      simp only [uniqueStep, hx, if_true]
      refine ⟨?_, ?_, ?_⟩
      · intro v
        by_cases hv : v = x
        · subst hv
          simp
        · have hne : (v == x) = false := by simpa using hv
          simp only [List.lookup_cons, hne, List.mem_append, List.mem_singleton, hv, or_false]
          exact hmap v
      · intro v
        simp only [List.mem_append, List.mem_singleton, hmem v]
      · rw [List.pairwise_append]
        refine ⟨?_, List.pairwise_singleton _ _, ?_⟩
        · refine hord.imp_of_mem ?_
          intro a b ha hb hab
          rw [List.indexOf_append_of_mem ((hmem a).1 ha),
            List.indexOf_append_of_mem ((hmem b).1 hb)]
          exact hab
        · intro a ha b hb
          rw [List.mem_singleton] at hb
          subst hb
          rw [List.indexOf_append_of_mem ((hmem a).1 ha), List.indexOf_append_of_not_mem hxs]
          have := List.indexOf_lt_length.2 ((hmem a).1 ha)
          omega
    · have hxu : x ∈ u := by
        by_contra h
        exact hx ((hmap x).2 h)
      have hstep : uniqueStep (u, m) x = (u, m) := by
        unfold uniqueStep
        exact if_neg hx
      rw [hstep]
      refine ⟨hmap, ?_, ?_⟩
      · intro v
        simp only [List.mem_append, List.mem_singleton, hmem v]
        constructor
        · exact Or.inl
        · rintro (h | rfl)
          · exact h
          · exact (hmem _).1 hxu
      · refine hord.imp_of_mem ?_
        intro a b ha hb hab
        rw [List.indexOf_append_of_mem ((hmem a).1 ha),
          List.indexOf_append_of_mem ((hmem b).1 hb)]
        exact hab

/-- C10: `UniqueInts xs` has no duplicates, holds exactly the values that occur
in `xs`, and lists them in the order of their first occurrence in `xs`; on
`[1,2,1,2]` it gives `[1,2]`, on the empty slice the empty slice. -/
theorem UniqueInts_spec (xs : List Int) :
    (UniqueInts xs).Nodup
      ∧ (∀ v, v ∈ UniqueInts xs ↔ v ∈ xs)
      ∧ (UniqueInts xs).Pairwise (fun a b => xs.indexOf a < xs.indexOf b)
      ∧ UniqueInts [1, 2, 1, 2] = [1, 2]
      ∧ UniqueInts [1, 2, 2, 3] = [1, 2, 3]
      ∧ UniqueInts [] = [] := by
  obtain ⟨_, hmem, hord⟩ := uniqueInts_invariant xs
  refine ⟨?_, hmem, hord, by decide, by decide, by decide⟩
  refine hord.imp ?_
  intro a b hab heq
  subst heq
  exact lt_irrefl _ hab

/-! ## `StringsDiff`, `IntSliceToCSV` and `Filter` -/

theorem foldl_insert_lookup (b : List GoString) (x : GoString) :
    ∀ m0 : List (GoString × Bool),
      ((b.foldl (fun m item => (item, true) :: m) m0).lookup x).isNone = true ↔
        x ∉ b ∧ (m0.lookup x).isNone = true := by
  induction b with
  | nil => intro m0; simp
  | cons y ys ih =>
    intro m0
    rw [List.foldl_cons, ih]
    by_cases hxy : x = y
    · subst hxy
      simp
    · have hne : (x == y) = false := by simpa using hxy
      simp [List.lookup_cons, hne, hxy]

theorem foldl_append_if (p : GoString → Bool) (a : List GoString) :
    ∀ acc : List GoString,
      a.foldl (fun diff item => if p item then diff ++ [item] else diff) acc
        = acc ++ a.filter p := by
  induction a with
  | nil => intro acc; simp
  | cons x xs ih =>
    intro acc
    rw [List.foldl_cons, ih]
    by_cases hp : p x = true
    · simp [hp]
    · simp [hp]

/-- C11: a string occurs in `StringsDiff a b` exactly when it occurs in `a`
and not in `b`, and the result is `a` with the strings of `b` struck out, in
the order of `a`; `a = [a, b, c]`, `b = [a]` gives `[b, c]`. -/
theorem StringsDiff_spec (a b : List GoString) :
    (∀ x, x ∈ StringsDiff a b ↔ x ∈ a ∧ x ∉ b)
      ∧ (StringsDiff a b).Sublist a
      ∧ StringsDiff a b = a.filter (fun x => decide (x ∉ b))
      ∧ StringsDiff [lit "a", lit "b", lit "c"] [lit "a"] = [lit "b", lit "c"] := by
  have hfilter : StringsDiff a b = a.filter (fun x => decide (x ∉ b)) := by
    unfold StringsDiff
    simp only
    rw [foldl_append_if (fun item =>
      ((b.foldl (fun m item => (item, true) :: m) []).lookup item).isNone) a []]
    rw [List.nil_append]
    apply List.filter_congr
    intro x _
    have h := foldl_insert_lookup b x []
    simp only [List.lookup_nil, Option.isNone_none, and_true] at h
    by_cases hx : x ∈ b
    · have : ¬ ((b.foldl (fun m item => (item, true) :: m) []).lookup x).isNone = true :=
        fun hh => (h.1 hh) hx
      simp [hx, this]
    · simp [hx, h.2 hx]
  refine ⟨?_, ?_, hfilter, by decide⟩
  · intro x
    rw [hfilter]
    simp [List.mem_filter]
  · rw [hfilter]
    exact List.filter_sublist _

/-- C13: `Filter vs f` is `vs` with the entries on which `f` is false struck
out: a subsequence of `vs` that keeps order and multiplicity; `[ab, bb, bc, da]`
filtered by "contains `a`" gives `[ab, da]`. -/
theorem Filter_spec (vs : List GoString) (f : GoString → Bool) :
    Filter vs f = vs.filter f
      ∧ (Filter vs f).Sublist vs
      ∧ (∀ v, v ∈ Filter vs f ↔ v ∈ vs ∧ f v = true)
      ∧ (∀ v, (Filter vs f).count v = if f v = true then vs.count v else 0)
      ∧ Filter [lit "ab", lit "bb", lit "bc", lit "da"] (fun v => ContainsByte v 97)
          = [lit "ab", lit "da"] := by
  have hfilter : Filter vs f = vs.filter f := by
    unfold Filter
    rw [foldl_append_if f vs [], List.nil_append]
  refine ⟨hfilter, ?_, ?_, ?_, by decide⟩
  · rw [hfilter]
    exact List.filter_sublist _
  · intro v
    rw [hfilter, List.mem_filter]
  · intro v
    rw [hfilter]
    split_ifs with h
    · exact List.count_filter h
    · exact List.count_eq_zero.2 (fun hm => h (List.mem_filter.1 hm).2)

theorem intercalate_cons_cons (sep x y : GoString) (zs : List GoString) :
    List.intercalate sep (x :: y :: zs) = x ++ sep ++ List.intercalate sep (y :: zs) := by
  simp [List.intercalate, List.intersperse]

/-- After the first element the loop writes a comma before every element. -/
theorem csvLoop_succ (ns : List Int) : ∀ (x : Nat) (b : GoString),
    csvLoop (x + 1) ns b = b ++ (ns.map (fun n => 44 :: FormatInt n 10)).flatten := by
  induction ns with
  | nil => intro x b; simp [csvLoop]
  | cons n rest ih =>
    intro x b
    simp only [csvLoop, Nat.succ_pos, if_true, ih]
    simp

theorem intercalate_comma (n : Int) (rest : List Int) :
    List.intercalate [44] ((n :: rest).map (fun n => FormatInt n 10))
      = FormatInt n 10 ++ (rest.map (fun n => 44 :: FormatInt n 10)).flatten := by
  induction rest generalizing n with
  | nil => simp [List.intercalate]
  | cons m ms ih =>
    have h := ih m
    rw [List.map_cons] at h
    rw [List.map_cons, List.map_cons, intercalate_cons_cons, h]
    simp

theorem formatBitsLoop_acc_base (base fuel : Nat) : ∀ u acc,
    formatBitsLoop base fuel u acc = formatBitsLoop base fuel u [] ++ acc := by
  induction fuel with
  | zero => intro u acc; simp [formatBitsLoop]
  | succ f ih =>
    intro u acc
    simp only [formatBitsLoop]
    split
    · rw [ih (u / base) (digitChar (u % base) :: acc), ih (u / base) [digitChar (u % base)]]
      simp
    · simp

theorem decimalValueFrom_snoc (l : GoString) (c : Nat) :
    decimalValueFrom 0 (l ++ [c]) = decimalValueFrom 0 l * 10 + (c - 48) := by
  simp [decimalValueFrom, List.foldl_append]

/-- The base-10 digit loop writes the decimal digits of `u`, and at least one. -/
theorem formatBitsLoop_decimal (fuel : Nat) : ∀ u, u < 10 ^ (fuel + 1) →
    DecimalDigits (formatBitsLoop 10 (fuel + 1) u [])
      ∧ decimalValue (formatBitsLoop 10 (fuel + 1) u []) = u := by
  induction fuel with
  | zero =>
    intro u hu
    have h : ¬ (10 ≤ u) := by omega
    have hd : digitChar u = 48 + u := by simp [digitChar]; omega
    simp only [formatBitsLoop, if_neg h, hd]
    refine ⟨⟨by simp, ?_⟩, ?_⟩
    · intro c hc
      rw [List.mem_singleton] at hc
      omega
    · simp [decimalValue, decimalValueFrom]
  | succ f ih =>
    intro u hu
    rw [formatBitsLoop]
    split
    · have hq : u / 10 < 10 ^ (f + 1) := by
        rw [pow_succ] at hu
        exact Nat.div_lt_of_lt_mul (by omega)
      have hr : u % 10 < 10 := Nat.mod_lt _ (by decide)
      have hd : digitChar (u % 10) = 48 + u % 10 := by simp [digitChar, hr]
      obtain ⟨⟨h1, h2⟩, h3⟩ := ih (u / 10) hq
      rw [formatBitsLoop_acc_base, hd]
      refine ⟨⟨by simp, ?_⟩, ?_⟩
      · intro c hc
        rcases List.mem_append.1 hc with hc | hc
        · exact h2 c hc
        · rw [List.mem_singleton] at hc
          omega
      · unfold decimalValue at h3 ⊢
        rw [decimalValueFrom_snoc, h3]
        omega
    · rename_i h
      have hd : digitChar u = 48 + u := by
        have : u < 10 := by omega
        simp [digitChar, this]
      rw [hd]
      refine ⟨⟨by simp, ?_⟩, ?_⟩
      · intro c hc
        rw [List.mem_singleton] at hc
        omega
      · simp [decimalValue, decimalValueFrom]

/-- The base-10 text of an `int64` is a literal that denotes it, and holds no comma. -/
theorem FormatInt_decimal (n : Int) (hlo : -2 ^ 63 ≤ n) (hhi : n < 2 ^ 63) :
    DenotesInt (FormatInt n 10) n ∧ 44 ∉ FormatInt n 10 := by
  have hpow : (2 : Nat) ^ 64 < 10 ^ (63 + 1) := by norm_num
  unfold FormatInt
  split
  · obtain ⟨hd, hv⟩ := formatBitsLoop_decimal 63 (-n).toNat (lt_trans (by omega) hpow)
    refine ⟨Or.inr (Or.inr ⟨_, rfl, hd, ?_⟩), ?_⟩
    · rw [hv]; omega
    · intro hmem
      rcases List.mem_cons.1 hmem with h | h
      · omega
      · have := hd.2 44 h
        omega
  · obtain ⟨hd, hv⟩ := formatBitsLoop_decimal 63 n.toNat (lt_trans (by omega) hpow)
    refine ⟨Or.inl ⟨hd, ?_⟩, ?_⟩
    · rw [hv]; omega
    · intro hmem
      have := hd.2 44 hmem
      omega

/-- C12: `IntSliceToCSV ns` is the base-10 texts of the elements of `ns`, in
order, joined by single commas, and the empty string for the empty slice; the
text of each `int` element denotes that element and holds no comma. So
`[1,2,3]` gives `1,2,3` and `[1]` gives `1`. -/
theorem IntSliceToCSV_spec (ns : List Int) :
    IntSliceToCSV ns = List.intercalate [44] (ns.map (fun n => FormatInt n 10))
      ∧ (∀ n ∈ ns, -2 ^ 63 ≤ n → n < 2 ^ 63 →
          DenotesInt (FormatInt n 10) n ∧ 44 ∉ FormatInt n 10)
      ∧ IntSliceToCSV [] = []
      ∧ IntSliceToCSV [1, 2, 3] = lit "1,2,3"
      ∧ IntSliceToCSV [1] = lit "1" := by
  refine ⟨?_, fun n _ hlo hhi => FormatInt_decimal n hlo hhi, by decide, by decide, by decide⟩
  cases ns with
  | nil => simp [IntSliceToCSV, List.intercalate]
  | cons n rest =>
    rw [intercalate_comma]
    simp only [IntSliceToCSV, List.length_cons, Nat.succ_ne_zero, if_false, csvLoop,
      Nat.lt_irrefl, List.nil_append, Nat.zero_add]
    exact csvLoop_succ rest 0 _

/-! ## `DecodeInteger` on arbitrary keys and `FileExists` -/

theorem sliceChecked_of_le (s : GoString) (lo hi : Nat) (h1 : lo ≤ hi) (h2 : hi ≤ s.length) :
    sliceChecked s (lo : Int) (hi : Int) = some (slice s lo hi) := by
  have h : 0 ≤ (lo : Int) ∧ (lo : Int) ≤ (hi : Int) ∧ (hi : Int) ≤ (s.length : Int) := by omega
  simp only [sliceChecked, if_pos h, Int.toNat_ofNat]

/-- C17: `DecodeInteger` returns 0 for every key shorter than three bytes, and
for every key it returns an `int` with each of its three slice expressions
inside the bounds of the key. -/
theorem DecodeInteger_total (key : GoString) :
    (key.length < 3 → DecodeInteger key = 0)
      ∧ DecodeIntegerChecked key = some (DecodeInteger key)
      ∧ (-2 ^ 63 ≤ DecodeInteger key ∧ DecodeInteger key < 2 ^ 63)
      ∧ DecodeInteger (lit "A7") = 0
      ∧ DecodeInteger (lit "") = 0 := by
  refine ⟨?_, ?_, ?_, by decide, by decide⟩
  · intro h
    simp [DecodeInteger, h]
  · by_cases h : key.length < 3
    · simp [DecodeIntegerChecked, DecodeInteger, h]
    · have e1 : sliceChecked key 0 1 = some (slice key 0 1) := by
        simpa using sliceChecked_of_le key 0 1 (by omega) (by omega)
      have e2 : sliceChecked key ((key.length : Int) - 1) (key.length : Int)
          = some (slice key (key.length - 1) key.length) := by
        have := sliceChecked_of_le key (key.length - 1) key.length (by omega) (by omega)
        rwa [show ((key.length - 1 : Nat) : Int) = (key.length : Int) - 1 by omega] at this
      have e3 : sliceChecked key 1 ((key.length : Int) - 1)
          = some (slice key 1 (key.length - 1)) := by
        have := sliceChecked_of_le key 1 (key.length - 1) (by omega) (by omega)
        rwa [show ((key.length - 1 : Nat) : Int) = (key.length : Int) - 1 by omega] at this
      simp only [DecodeIntegerChecked, DecodeInteger, if_neg h, e2, e3]
      rw [e1]
  · unfold DecodeInteger
    split
    · constructor <;> norm_num
    · exact wrapInt64_range _

/-- What `FileExists` does when `os.Stat` succeeds or reports that the file
does not exist. -/
theorem FileExists_defined (fs : FileSystem) (filename : GoString) :
    (∀ i, fs.Stat filename = (some i, none) → FileExists fs filename = some (!i.isDir))
      ∧ (∀ e, fs.Stat filename = (none, some e) → fs.IsNotExist e = true →
          FileExists fs filename = some false) := by
  refine ⟨?_, ?_⟩
  · intro i h
    simp [FileExists, h]
  · intro e h he
    simp [FileExists, h, he]

/-- C18: when `os.Stat` fails with an error other than "does not exist" (here
`EACCES`, permission denied), `FileExists` calls `IsDir` on the nil file info
and panics instead of returning false. -/
theorem FileExists_permission_denied :
    FileExists ⟨fun _ => (none, some (GoError.external 13)),
        fun e => decide (e = GoError.external 2)⟩ (lit "/root/private/file") = none := by
  decide

/-! ## Package `storage` -/

theorem HasSuffix_iff (s suffix : GoString) : HasSuffix s suffix = true ↔ suffix <:+ s := by
  unfold HasSuffix
  rw [Bool.and_eq_true, decide_eq_true_eq, beq_iff_eq]
  constructor
  · rintro ⟨_, h⟩
    rw [← h]
    exact List.drop_suffix _ _
  · intro h
    refine ⟨h.length_le, ?_⟩
    obtain ⟨r, rfl⟩ := h
    simp

theorem getFilesLoop_done (items : List ObjectAttrs) : ∀ result,
    getFilesLoop items none result = (result ++ items.map (fun a => a.Name), none) := by
  induction items with
  | nil => intro result; simp [getFilesLoop]
  | cons a rest ih =>
    intro result
    simp [getFilesLoop, ih]

theorem getFilesWithSuffixLoop_done (suffix : GoString) (items : List ObjectAttrs) : ∀ result,
    getFilesWithSuffixLoop suffix items none result
      = (result ++ (items.map (fun a => a.Name)).filter (fun n => HasSuffix n suffix), none) := by
  induction items with
  | nil => intro result; simp [getFilesWithSuffixLoop]
  | cons a rest ih =>
    intro result
    by_cases h : HasSuffix a.Name suffix = true
    · simp [getFilesWithSuffixLoop, ih, h]
    · simp [getFilesWithSuffixLoop, ih, h]

/-- C15: when the bucket listing for `path` iterates without error,
`GetFilesWithSuffix` returns the names `GetFiles` returns, in the same order,
restricted to the names that end with `suffix`, and neither call reports an
error. -/
theorem GetFilesWithSuffix_spec (b : Bucket) (path suffix : GoString)
    (h : (b.Objects path).err = none) :
    GetFilesWithSuffix b path suffix
        = ((GetFiles b path).1.filter (fun name => HasSuffix name suffix), none)
      ∧ (GetFiles b path).2 = none
      ∧ (∀ name, HasSuffix name suffix = true ↔ suffix <:+ name) := by
  refine ⟨?_, ?_, fun name => HasSuffix_iff name suffix⟩
  · simp [GetFilesWithSuffix, GetFiles, h, getFilesLoop_done, getFilesWithSuffixLoop_done]
  · simp [GetFiles, h, getFilesLoop_done]

/-- Witness for C15: a listing with one `.txt` and one `.json` object. -/
theorem GetFilesWithSuffix_spec_witness :
    GetFilesWithSuffix ⟨fun _ => ⟨[⟨lit "testing/f1.txt", 5⟩, ⟨lit "testing/f2.json", 6⟩], none⟩,
        fun _ _ => none⟩ (lit "testing/") (lit ".txt") = ([lit "testing/f1.txt"], none) :=
  (GetFilesWithSuffix_spec ⟨fun _ => ⟨[⟨lit "testing/f1.txt", 5⟩, ⟨lit "testing/f2.json", 6⟩],
      none⟩, fun _ _ => none⟩ (lit "testing/") (lit ".txt") rfl).1.trans (by decide)

theorem getFileInfoLoop_done (items : List ObjectAttrs) : ∀ result,
    getFileInfoLoop items none result = (result ++ items, none) := by
  induction items with
  | nil => intro result; simp [getFileInfoLoop]
  | cons a rest ih =>
    intro result
    simp [getFileInfoLoop, ih]

/-- For an age whose nanosecond count fits `int64`, the time limit is the
clock reading less that many hours. -/
theorem timeLimit_of_fits (now ageh : Int) (h : AgeFits ageh) :
    timeLimit now ageh = now - ageh * Hour := by
  unfold AgeFits at h
  unfold timeLimit wrapInt64 Hour
  omega

/-- While the `Delete` calls the loop itself makes all succeed, it deletes every
object older than the limit, in listing order, and counts them. -/
theorem deleteOldLoop_all (b : Bucket) (limit : Int) (items : List ObjectAttrs) :
    ∀ (result : Int) (calls : List GoString),
    (∀ p x q, (items.filter (fun a => decide (a.Created < limit))).map (fun a => a.Name)
        = p ++ x :: q → b.Delete (calls ++ p) x = none) →
    deleteOldLoop b limit items result calls
      = ((result + ((items.filter (fun a => decide (a.Created < limit))).length : Int), none),
          calls ++ (items.filter (fun a => decide (a.Created < limit))).map (fun a => a.Name)) := by
  induction items with
  | nil => intro result calls _; simp [deleteOldLoop]
  | cons a rest ih =>
    intro result calls hdel
    by_cases hold : a.Created < limit
    · simp only [List.filter_cons, decide_eq_true hold, if_true, List.map_cons] at hdel
      have h0 : b.Delete calls a.Name = none := by
        simpa using hdel [] a.Name _ rfl
      have hrec := ih (result + 1) (calls ++ [a.Name]) (by
        intro p x q hsplit
        have := hdel (a.Name :: p) x q (by rw [hsplit]; rfl)
        simpa using this)
      have hstep : deleteOldLoop b limit (a :: rest) result calls
          = deleteOldLoop b limit rest (result + 1) (calls ++ [a.Name]) := by
        simp only [deleteOldLoop, if_pos hold, DeleteCloudFile, h0]
      rw [hstep, hrec]
      simp only [List.filter_cons, decide_eq_true hold, if_true, List.length_cons, List.map_cons,
        List.append_assoc, List.singleton_append, Prod.mk.injEq, and_true]
      push_cast
      omega
    · simp only [List.filter_cons, decide_eq_false hold] at hdel
      have hrec := ih result calls (by simpa using hdel)
      have hstep : deleteOldLoop b limit (a :: rest) result calls
          = deleteOldLoop b limit rest result calls := by
        simp only [deleteOldLoop, if_neg hold]
      rw [hstep, hrec]
      simp [List.filter_cons, hold]

/-- When the `Delete` calls the loop makes before the object `a` all succeed and
the one on `a` fails, the loop stops there and returns the number of deletions
done before it, with the error. -/
theorem deleteOldLoop_stops (b : Bucket) (limit : Int) (e2 : GoError)
    (pre : List ObjectAttrs) (a : ObjectAttrs) (post : List ObjectAttrs)
    (hold : a.Created < limit) : ∀ (result : Int) (calls : List GoString),
    (∀ p x q, (pre.filter (fun a => decide (a.Created < limit))).map (fun a => a.Name)
        = p ++ x :: q → b.Delete (calls ++ p) x = none) →
    b.Delete (calls ++ (pre.filter (fun a => decide (a.Created < limit))).map (fun a => a.Name))
        a.Name = some e2 →
    deleteOldLoop b limit (pre ++ a :: post) result calls
      = ((result + ((pre.filter (fun a => decide (a.Created < limit))).length : Int), some e2),
          calls ++ (pre.filter (fun a => decide (a.Created < limit))).map (fun a => a.Name)
            ++ [a.Name]) := by
  induction pre with
  | nil =>
    intro result calls _ hfail
    simp only [List.filter_nil, List.map_nil, List.append_nil] at hfail
    simp [deleteOldLoop, hold, DeleteCloudFile, hfail]
  | cons p ps ih =>
    intro result calls hok hfail
    by_cases hp : p.Created < limit
    · simp only [List.filter_cons, decide_eq_true hp, if_true, List.map_cons] at hok hfail
      have hdel : b.Delete calls p.Name = none := by
        simpa using hok [] p.Name _ rfl
      have hrec := ih (result + 1) (calls ++ [p.Name])
        (by
          intro p1 x q hsplit
          have := hok (p.Name :: p1) x q (by rw [hsplit]; rfl)
          simpa using this)
        (by simpa using hfail)
      have hstep : deleteOldLoop b limit ((p :: ps) ++ a :: post) result calls
          = deleteOldLoop b limit (ps ++ a :: post) (result + 1) (calls ++ [p.Name]) := by
        simp only [List.cons_append, deleteOldLoop, if_pos hp, DeleteCloudFile, hdel]
        rfl
      rw [hstep, hrec]
      simp only [List.filter_cons, decide_eq_true hp, if_true, List.length_cons, List.map_cons,
        List.append_assoc, List.singleton_append, Prod.mk.injEq, and_true]
      push_cast
      omega
    · simp only [List.filter_cons, decide_eq_false hp] at hok hfail
      have hrec := ih result calls (by simpa using hok) (by simpa using hfail)
      have hstep : deleteOldLoop b limit ((p :: ps) ++ a :: post) result calls
          = deleteOldLoop b limit (ps ++ a :: post) result calls := by
        simp only [List.cons_append, deleteOldLoop, if_neg hp]
        rfl
      rw [hstep, hrec]
      simp [List.filter_cons, hp]

/-- What `DeleteOldFiles` does for an age `ageh` whose nanosecond count fits the
`int64` of a `time.Duration` (at most 2562047 hours either way), on a listing
obtained without error. If every `Delete` the run makes succeeds, it deletes
exactly the listed objects created strictly before `now - ageh` hours, in
listing order, and returns their count with no error. If the `Delete` on the
object `a` is the first to fail, it stops at `a` and returns the number of
deletions done before it together with that error. The buckets may refuse any
`Delete` the run does not make. -/
theorem DeleteOldFiles_in_range (b : Bucket) (now : Int) (path : GoString) (ageh : Int)
    (hfit : AgeFits ageh) (hlist : (b.Objects path).err = none) :
    ((∀ p x q, ((b.Objects path).items.filter
            (fun a => decide (a.Created < now - ageh * Hour))).map (fun a => a.Name)
          = p ++ x :: q → b.Delete p x = none) →
        DeleteOldFiles b now path ageh
          = (((((b.Objects path).items.filter
                (fun a => decide (a.Created < now - ageh * Hour))).length : Int), none),
              ((b.Objects path).items.filter
                (fun a => decide (a.Created < now - ageh * Hour))).map (fun a => a.Name)))
      ∧ (∀ pre a post e2, (b.Objects path).items = pre ++ a :: post →
          a.Created < now - ageh * Hour →
          (∀ p x q, (pre.filter (fun a => decide (a.Created < now - ageh * Hour))).map
              (fun a => a.Name) = p ++ x :: q → b.Delete p x = none) →
          b.Delete ((pre.filter (fun a => decide (a.Created < now - ageh * Hour))).map
              (fun a => a.Name)) a.Name = some e2 →
          DeleteOldFiles b now path ageh
            = (((((pre.filter (fun a => decide (a.Created < now - ageh * Hour))).length : Int),
                  some e2),
                (pre.filter (fun a => decide (a.Created < now - ageh * Hour))).map
                  (fun a => a.Name) ++ [a.Name]))) := by
  have hinfo : GetFileInfo b path = ((b.Objects path).items, none) := by
    simp [GetFileInfo, hlist, getFileInfoLoop_done]
  refine ⟨?_, ?_⟩
  · intro hdel
    have h := deleteOldLoop_all b (now - ageh * Hour) (b.Objects path).items 0 []
      (by simpa using hdel)
    simp only [DeleteOldFiles, hinfo, timeLimit_of_fits now ageh hfit, h]
    simp
  · intro pre a post e2 hitems hold hok hfail
    have h := deleteOldLoop_stops b (now - ageh * Hour) e2 pre a post hold 0 []
      (by simpa using hok) (by simpa using hfail)
    simp only [DeleteOldFiles, hinfo, timeLimit_of_fits now ageh hfit, hitems, h]
    simp

/-- An instance of `DeleteOldFiles_in_range`: two objects written one second
before `now`, in a bucket that refuses to delete a name twice; an age of `-1`
hour deletes both and returns 2, an age of `1` hour deletes none and returns 0. -/
theorem DeleteOldFiles_in_range_example :
    DeleteOldFiles ⟨fun _ => ⟨[⟨lit "testing/f1.txt", 1699999999000000000⟩,
          ⟨lit "testing/f2.json", 1699999999000000000⟩], none⟩,
          fun h fn => if fn ∈ h then some (.external 404) else none⟩
        1700000000000000000 (lit "testing/") (-1)
        = ((2, none), [lit "testing/f1.txt", lit "testing/f2.json"])
      ∧ DeleteOldFiles ⟨fun _ => ⟨[⟨lit "testing/f1.txt", 1699999999000000000⟩,
          ⟨lit "testing/f2.json", 1699999999000000000⟩], none⟩,
          fun h fn => if fn ∈ h then some (.external 404) else none⟩
        1700000000000000000 (lit "testing/") 1 = ((0, none), []) := by
  refine ⟨?_, ?_⟩
  · refine ((DeleteOldFiles_in_range _ 1700000000000000000 (lit "testing/") (-1)
      (by unfold AgeFits; decide) rfl).1 ?_).trans (by decide)
    intro p x q hsplit
    have hnames : (List.filter (fun a => decide (a.Created < 1700000000000000000 - -1 * Hour))
        [(⟨lit "testing/f1.txt", 1699999999000000000⟩ : ObjectAttrs),
          ⟨lit "testing/f2.json", 1699999999000000000⟩]).map (fun a => a.Name)
        = [lit "testing/f1.txt", lit "testing/f2.json"] := by decide
    simp only at hsplit
    rw [hnames] at hsplit
    match p, hsplit with
    | [], h =>
      simp only [List.nil_append, List.cons.injEq] at h
      simp
    | [y], h =>
      simp only [List.singleton_append, List.cons.injEq] at h
      obtain ⟨rfl, rfl, _⟩ := h
      decide
    | y :: z :: r, h =>
      simp only [List.cons_append, List.cons.injEq] at h
      obtain ⟨_, _, h3⟩ := h
      simp at h3
  · refine ((DeleteOldFiles_in_range _ 1700000000000000000 (lit "testing/") 1
      (by unfold AgeFits; decide) rfl).1 ?_).trans (by decide)
    intro p x q hsplit
    have hnames : (List.filter (fun a => decide (a.Created < 1700000000000000000 - 1 * Hour))
        [(⟨lit "testing/f1.txt", 1699999999000000000⟩ : ObjectAttrs),
          ⟨lit "testing/f2.json", 1699999999000000000⟩]).map (fun a => a.Name) = [] := by decide
    simp only at hsplit
    rw [hnames] at hsplit
    simp at hsplit

/-- C14: with `ageh = 2562048` the product `time.Duration(ageh*-1) * time.Hour`
overflows `int64` and the time limit lies about 292 years after `now`, so
`DeleteOldFiles` deletes both objects written one second earlier and returns
2, although no listed object was created before `now` less 2562048 hours. -/
theorem DeleteOldFiles_overflow :
    DeleteOldFiles ⟨fun _ => ⟨[⟨lit "testing/f1.txt", 1699999999000000000⟩,
          ⟨lit "testing/f2.json", 1699999999000000000⟩], none⟩, fun _ _ => none⟩
        1700000000000000000 (lit "testing/") 2562048
        = ((2, none), [lit "testing/f1.txt", lit "testing/f2.json"])
      ∧ timeLimit 1700000000000000000 2562048 = 1700000000000000000 + 9223371273709551616
      ∧ [(⟨lit "testing/f1.txt", 1699999999000000000⟩ : ObjectAttrs),
          ⟨lit "testing/f2.json", 1699999999000000000⟩].filter
            (fun a => decide (a.Created < 1700000000000000000 - 2562048 * Hour)) = [] := by
  decide

/-! ## The default storage client -/

theorem step_keeps_defaultClient (st : PkgState) (c : Client) (h : st.defaultClient = some c)
    (call : PkgCall) : (call.step st).defaultClient = some c := by
  cases call with
  | newCStoreP sdk bucketName =>
    simp only [PkgCall.step, NewCStoreP, h]
    split <;> simp [h]
  | newCStore sdk cred bucketName =>
    simp only [PkgCall.step, NewCStore]
    split
    · exact h
    · cases sdk <;> simp [h]

theorem runCalls_keeps_defaultClient (calls : List PkgCall) : ∀ (st : PkgState) (c : Client),
    st.defaultClient = some c → (runCalls st calls).defaultClient = some c := by
  induction calls with
  | nil => intro st c h; exact h
  | cons call rest ih =>
    intro st c h
    exact ih (call.step st) c (step_keeps_defaultClient st c h call)

theorem NewCStoreP_ok_sets_default (sdk : NewClientResult) (st : PkgState)
    (bucketName : GoString) (store : CStore)
    (hok : (NewCStoreP sdk st bucketName).1 = (some store, none)) :
    ∃ c, store.client = some c ∧ (NewCStoreP sdk st bucketName).2.defaultClient = some c := by
  unfold NewCStoreP at hok ⊢
  split at hok
  · simp at hok
  · cases hd : st.defaultClient with
    | none =>
      rw [hd] at hok
      cases sdk with
      | fail err => simp at hok
      | ok c =>
        simp only [Prod.mk.injEq, Option.some.injEq, and_true] at hok
        subst hok
        exact ⟨c, rfl, by simp [*]⟩
    | some c =>
      rw [hd] at hok
      simp only [Prod.mk.injEq, Option.some.injEq, and_true] at hok
      subst hok
      exact ⟨c, rfl, by simp [*]⟩

/-- C16: once a `NewCStoreP` call has succeeded (which it does for a non-empty
bucket name only), then after any further `NewCStoreP` and `NewCStore` calls, whatever the SDK
answers them, a `NewCStoreP` call with a non-empty bucket name succeeds, leaves
the package state as it was, so that no storage client is built, and returns a
store whose client is the client of the earlier store. -/
theorem NewCStoreP_reuses_client (sdk : NewClientResult) (st : PkgState)
    (bucketName : GoString) (store : CStore)
    (hok : (NewCStoreP sdk st bucketName).1 = (some store, none))
    (calls : List PkgCall) (sdk2 : NewClientResult) (bucketName2 : GoString)
    (hne2 : bucketName2 ≠ []) :
    ∃ store2 : CStore,
      NewCStoreP sdk2 (runCalls (NewCStoreP sdk st bucketName).2 calls) bucketName2
          = ((some store2, none), runCalls (NewCStoreP sdk st bucketName).2 calls)
        ∧ store2.client = store.client
        ∧ store2.client ≠ none := by
  obtain ⟨c, hc, hdef⟩ := NewCStoreP_ok_sets_default sdk st bucketName store hok
  have hrun := runCalls_keeps_defaultClient calls _ c hdef
  have hlen : ¬ (bucketName2.length = 0) := by
    simpa [List.length_eq_zero] using hne2
  generalize runCalls (NewCStoreP sdk st bucketName).2 calls = st1 at hrun
  refine ⟨⟨some c, some (c, bucketName2), []⟩, ?_, hc.symm, by simp⟩
  simp only [NewCStoreP, if_neg hlen, hrun]

/-- Witness for C16: a first call that builds client 7, a `NewCStore` call that
builds client 8, and a second `NewCStoreP` call for which the SDK would fail. -/
theorem NewCStoreP_reuses_client_witness :
    ∃ store2 : CStore,
      NewCStoreP (.fail (.external 1))
          (runCalls (NewCStoreP (.ok 7) ⟨none, 0⟩ (lit "Sample")).2
            [.newCStore (.ok 8) (lit "cred") (lit "Other")]) (lit "Sample2")
          = ((some store2, none),
              runCalls (NewCStoreP (.ok 7) ⟨none, 0⟩ (lit "Sample")).2
                [.newCStore (.ok 8) (lit "cred") (lit "Other")])
        ∧ store2.client = (⟨some 7, some (7, lit "Sample"), []⟩ : CStore).client
        ∧ store2.client ≠ none :=
  NewCStoreP_reuses_client (.ok 7) ⟨none, 0⟩ (lit "Sample") ⟨some 7, some (7, lit "Sample"), []⟩
    (by decide) [.newCStore (.ok 8) (lit "cred") (lit "Other")]
    (.fail (.external 1)) (lit "Sample2") (by decide)

end GcpGoUtils
